import Mathlib

/-!
Verification of the go-modules package synchronization subsystem:

* the dependency coordinate parser (`internal/conf/reposource/go_modules.go`,
  together with the validation routines it calls from `golang.org/x/mod`,
  the vendored module/semver library),
* the module proxy client (`internal/extsvc/gomodproxy`),
* the reconciliation engine (`internal/repos/go_modules.go`).

Go strings are modelled as `List Char`.  The sampled source only ever
inspects strings byte-wise at positions that, for inputs surviving the
validators, are ASCII, where Go's byte indexing and rune iteration
coincide with `List Char` positions; this is noted at each place where
the distinction could matter.
-/

namespace GoSync

/-- Go comparison `'0' <= c && c <= '9'` used throughout `x/mod`. -/
def isDigitB (c : Char) : Bool := decide ('0' ≤ c) && decide (c ≤ '9')

namespace semver

/-- Embeds `golang.org/x/mod/semver.parsed`: the components of a parsed
semantic version.  `short` records the elided `.MINOR.PATCH` suffix of the
short forms exactly as the Go struct does. -/
structure Parsed where
  major : List Char := []
  minor : List Char := []
  patch : List Char := []
  short : List Char := []
  prerelease : List Char := []
  build : List Char := []
deriving DecidableEq

/-- Embeds `semver.parseInt`: a run of decimal digits without a redundant
leading zero; returns the consumed digits and the rest. -/
def parseInt : List Char → Option (List Char × List Char)
  | [] => none
  | c :: cs =>
    if isDigitB c then
      let t := c :: cs.takeWhile isDigitB
      let rest := cs.dropWhile isDigitB
      if c = '0' ∧ ¬ t.length = 1 then none else some (t, rest)
    else none

/-- Embeds `semver.isIdentChar`: ASCII letters, digits and `-`. -/
def isIdentChar (c : Char) : Bool :=
  (decide ('A' ≤ c) && decide (c ≤ 'Z')) || (decide ('a' ≤ c) && decide (c ≤ 'z')) ||
    isDigitB c || decide (c = '-')

/-- Embeds `semver.isBadNum`: an all-digit identifier with a redundant
leading zero. -/
def isBadNum (v : List Char) : Bool :=
  decide ((v.takeWhile isDigitB).length = v.length) && decide (1 < v.length) &&
    decide (v.head? = some '0')

/-- The scanning loop of `semver.parsePrerelease` (the `for` over `v[i]`,
starting after the `-`): `seg` is the current dot-separated segment
(`v[start:i]` in the Go code).  Returns the consumed characters and the
rest (which begins with `+` when present). -/
def preLoop : List Char → List Char → Option (List Char × List Char)
  | seg, [] => if seg = [] ∨ isBadNum seg then none else some ([], [])
  | seg, c :: cs =>
    if c = '+' then
      if seg = [] ∨ isBadNum seg then none else some ([], c :: cs)
    else if ¬ (isIdentChar c || decide (c = '.')) = true then none
    else if c = '.' then
      if seg = [] ∨ isBadNum seg then none
      else match preLoop [] cs with
        | none => none
        | some (t, r) => some (c :: t, r)
    else match preLoop (seg ++ [c]) cs with
      | none => none
      | some (t, r) => some (c :: t, r)

/-- Embeds `semver.parsePrerelease`. -/
def parsePrerelease (v : List Char) : Option (List Char × List Char) :=
  match v with
  | [] => none
  | c :: cs =>
    if ¬ c = '-' then none
    else match preLoop [] cs with
      | none => none
      | some (t, r) => some ('-' :: t, r)

/-- The scanning loop of `semver.parseBuild` (after the `+`): like
`preLoop` but with no `isBadNum` restriction and no stop at `+`. -/
def buildLoop : List Char → List Char → Option (List Char × List Char)
  | seg, [] => if seg = [] then none else some ([], [])
  | seg, c :: cs =>
    if ¬ (isIdentChar c || decide (c = '.')) = true then none
    else if c = '.' then
      if seg = [] then none
      else match buildLoop [] cs with
        | none => none
        | some (t, r) => some (c :: t, r)
    else match buildLoop (seg ++ [c]) cs with
      | none => none
      | some (t, r) => some (c :: t, r)

/-- Embeds `semver.parseBuild`. -/
def parseBuild (v : List Char) : Option (List Char × List Char) :=
  match v with
  | [] => none
  | c :: cs =>
    if ¬ c = '+' then none
    else match buildLoop [] cs with
      | none => none
      | some (t, r) => some ('+' :: t, r)

/-- Embeds `semver.parse`: `v` prefix, dotted numbers with the two short
forms, optional prerelease and build, and the final full-consumption
check. -/
def parse (v : List Char) : Option Parsed :=
  match v with
  | [] => none
  | c :: w =>
    if ¬ c = 'v' then none
    else match parseInt w with
    | none => none
    | some (major, r1) =>
      match r1 with
      | [] => some { major := major, minor := [('0')], patch := [('0')], short := (".0.0").toList }
      | d :: w2 =>
        if ¬ d = '.' then none
        else match parseInt w2 with
        | none => none
        | some (minor, r2) =>
          match r2 with
          | [] => some { major := major, minor := minor, patch := [('0')], short := (".0").toList }
          | e :: w3 =>
            if ¬ e = '.' then none
            else match parseInt w3 with
            | none => none
            | some (patch, r3) =>
              match (if r3.head? = some '-' then parsePrerelease r3 else some ([], r3)) with
              | none => none
              | some (pre, r4) =>
                match (if r4.head? = some '+' then parseBuild r4 else some ([], r4)) with
                | none => none
                | some (bld, r5) =>
                  if r5 = [] then
                    some { major := major, minor := minor, patch := patch,
                           prerelease := pre, build := bld }
                  else none

/-- Embeds `semver.IsValid`. -/
def IsValid (v : List Char) : Bool := (parse v).isSome

/-- Embeds `semver.Major`: the `v` plus the major digits, or `""` when
invalid. -/
def Major (v : List Char) : List Char :=
  match parse v with
  | none => []
  | some p => v.take (1 + p.major.length)

/-- Embeds `semver.Build`: the build suffix including `+`, or `""` when
invalid. -/
def Build (v : List Char) : List Char :=
  match parse v with
  | none => []
  | some p => p.build

end semver

namespace gomod

/-- Embeds `module.modPathOK`: the characters allowed in a module path
element.  `r < utf8.RuneSelf` is `r.toNat < 128`. -/
def modPathOK (r : Char) : Bool :=
  if r.toNat < 128 then
    decide (r = '-') || decide (r = '.') || decide (r = '_') || decide (r = '~') ||
      isDigitB r || (decide ('a' ≤ r) && decide (r ≤ 'z'))
  else false

/-- Embeds `module.firstPathOK`: the characters allowed in the first path
element (no `_` or `~`). -/
def firstPathOK (r : Char) : Bool :=
  decide (r = '-') || decide (r = '.') || isDigitB r ||
    (decide ('a' ≤ r) && decide (r ≤ 'z'))

/-- Embeds `strings.Contains(path, "//")`. -/
def hasDoubleSlash : List Char → Bool
  | a :: b :: rest => (decide (a = '/') && decide (b = '/')) || hasDoubleSlash (b :: rest)
  | _ => false

/-- Embeds the `badWindowsNames` table of `x/mod/module`. -/
def badWindowsNames : List (List Char) :=
  [("CON").toList, ("PRN").toList, ("AUX").toList, ("NUL").toList,
   ("COM1").toList, ("COM2").toList, ("COM3").toList, ("COM4").toList, ("COM5").toList,
   ("COM6").toList, ("COM7").toList, ("COM8").toList, ("COM9").toList,
   ("LPT1").toList, ("LPT2").toList, ("LPT3").toList, ("LPT4").toList, ("LPT5").toList,
   ("LPT6").toList, ("LPT7").toList, ("LPT8").toList, ("LPT9").toList]

/-- ASCII lower-casing.  `strings.EqualFold` performs Unicode simple case
folding; at its single call site below the candidate element has already
passed the `modPathOK` character filter, so both sides are ASCII and the
ASCII fold is exact. -/
def toLowerGo (c : Char) : Char :=
  if 'A' ≤ c ∧ c ≤ 'Z' then Char.ofNat (c.toNat + 32) else c

/-- Embeds `strings.EqualFold` at the `badWindowsNames` call site (ASCII
arguments, see `toLowerGo`). -/
def eqFold (a b : List Char) : Bool :=
  decide (a.map toLowerGo = b.map toLowerGo)

/-- Embeds `module.checkElem` specialized to the `modulePath` path kind,
the only kind reachable from the sampled repository code (`CheckPath` and
`Check` pass `modulePath`); the `kind` dispatch is therefore resolved. -/
def checkElem (elem : List Char) : Option (List Char) :=
  if elem = [] then some (("empty path element").toList)
  else if elem.all (fun c => decide (c = '.')) then some (("invalid path element").toList)
  else if elem.head? = some '.' then some (("leading dot in path element").toList)
  else if elem.getLast? = some '.' then some (("trailing dot in path element").toList)
  else if ¬ elem.all modPathOK then some (("invalid char in path element").toList)
  else
    let short := elem.takeWhile (fun c => decide (¬ c = '.'))
    if badWindowsNames.any (fun bad => eqFold bad short) then
      some (("disallowed path element").toList)
    else
      let tildeSfx := (short.reverse.takeWhile (fun c => decide (¬ c = '~'))).reverse
      if ('~') ∈ short ∧ ¬ tildeSfx = [] ∧ tildeSfx.all isDigitB then
        some (("trailing tilde and digits in path element").toList)
      else none

/-- The element scan of `module.checkPath` (the `for` tracking
`elemStart`): `elem` is the element accumulated so far. -/
def checkPathLoop : List Char → List Char → Option (List Char)
  | elem, [] => checkElem elem
  | elem, c :: cs =>
    if c = '/' then
      match checkElem elem with
      | some e => some e
      | none => checkPathLoop [] cs
    else checkPathLoop (elem ++ [c]) cs

/-- Embeds `module.checkPath` at kind `modulePath`.  The leading
`utf8.ValidString` test is omitted: every `List Char` models a valid
Unicode string (Lean `Char` is a Unicode scalar value). -/
def checkPath (path : List Char) : Option (List Char) :=
  if path = [] then some (("empty string").toList)
  else if path.head? = some '-' then some (("leading dash").toList)
  else if hasDoubleSlash path then some (("double slash").toList)
  else if path.getLast? = some '/' then some (("trailing slash").toList)
  else checkPathLoop [] path

/-- Embeds `module.splitGopkgIn`.  Index arithmetic on the original string
is rendered with `reverse`/`takeWhile`: `rest` is the reversed prefix
`path[:i]`, so `rest.head?` is `path[i-1]` and `rest.tail.head?` is
`path[i-2]`. -/
def splitGopkgIn (path : List Char) : List Char × List Char × Bool :=
  if ¬ (("gopkg.in/").toList).isPrefixOf path then (path, [], false)
  else
    let unst := (("-unstable").toList).isSuffixOf path
    let rev2 := if unst then path.reverse.drop 9 else path.reverse
    let digs := rev2.takeWhile isDigitB
    let rest := rev2.dropWhile isDigitB
    if rest.length ≤ 1 ∨ ¬ rest.head? = some 'v' ∨ ¬ rest.tail.head? = some '.' then
      (path, [], false)
    else
      let majTail := digs.reverse ++ (if unst then ("-unstable").toList else [])
      if majTail = [] ∨ (majTail.head? = some '0' ∧ ¬ majTail = [('0')]) then (path, [], false)
      else ((rest.drop 2).reverse, '.' :: 'v' :: majTail, true)

/-- Embeds `module.SplitPathVersion`: the trailing `/vN` major-version
suffix.  The backwards digit-or-dot scan is rendered on the reversed
list, as in `splitGopkgIn`. -/
def SplitPathVersion (path : List Char) : List Char × List Char × Bool :=
  if (("gopkg.in/").toList).isPrefixOf path then splitGopkgIn path
  else
    let p := fun c => isDigitB c || decide (c = '.')
    let sfx := path.reverse.takeWhile p
    let rest := path.reverse.dropWhile p
    if rest.length ≤ 1 ∨ sfx = [] ∨ ¬ rest.head? = some 'v' ∨ ¬ rest.tail.head? = some '/' then
      (path, [], true)
    else
      let maj := sfx.reverse
      if maj.any (fun c => decide (c = '.')) ∨ maj = [] ∨ maj.head? = some '0' ∨ maj = [('1')] then
        (path, [], false)
      else ((rest.drop 2).reverse, '/' :: 'v' :: maj, true)

/-- Embeds `module.CheckPath`: `checkPath` at kind `modulePath` plus the
first-element dot/char rules and the path-version check.  Error values
are modelled by their message strings (the Go wrapper records the
offending path alongside; no claim inspects error payloads). -/
def CheckPath (path : List Char) : Option (List Char) :=
  match checkPath path with
  | some e => some e
  | none =>
    let firstElem := path.takeWhile (fun c => decide (¬ c = '/'))
    if firstElem = [] then some (("leading slash").toList)
    else if ¬ ('.') ∈ firstElem then some (("missing dot in first path element").toList)
    else if path.head? = some '-' then some (("leading dash in first path element").toList)
    else if ¬ firstElem.all firstPathOK then some (("invalid char in first path element").toList)
    else if ¬ (SplitPathVersion path).2.2 then some (("invalid version").toList)
    else none

/-- Embeds `module.CheckPathMajor`. -/
def CheckPathMajor (v pathMajor : List Char) : Option (List Char) :=
  let pm :=
    if ((".v").toList).isPrefixOf pathMajor ∧ (("-unstable").toList).isSuffixOf pathMajor
    then pathMajor.take (pathMajor.length - 9) else pathMajor
  if (("v0.0.0-").toList).isPrefixOf v ∧ pm = ((".v1").toList) then none
  else
    let m := semver.Major v
    if pm = [] then
      if m = (("v0").toList) ∨ m = (("v1").toList) ∨ semver.Build v = (("+incompatible").toList)
      then none
      else some (("mismatched major version").toList)
    else if pm.head? = some '/' ∨ pm.head? = some '.' then
      if m = pm.tail then none else some (("mismatched major version").toList)
    else some (("mismatched major version").toList)

/-- Embeds `module.Check`. -/
def Check (path version : List Char) : Option (List Char) :=
  match CheckPath path with
  | some e => some e
  | none =>
    if semver.IsValid version then CheckPathMajor version (SplitPathVersion path).2.1
    else some (("not a semantic version").toList)

/-- Embeds `module.Version`: a module path with an optional version. -/
structure Version where
  path : List Char
  version : List Char
deriving DecidableEq

/-- Embeds `module.Version.String`. -/
def Version.string (m : Version) : List Char :=
  if m.version = [] then m.path else m.path ++ '@' :: m.version

end gomod

namespace reposource

/-- Embeds `strings.LastIndex(dependency, "@")` as a splitter: `none` when
no `@` occurs, otherwise the text before and after the last `@`.  Byte
index and character position agree because `@` (0x40) never occurs as a
UTF-8 continuation byte. -/
def splitLastAt (s : List Char) : Option (List Char × List Char) :=
  let r := s.reverse
  if ('@') ∈ r then
    some (((r.dropWhile (fun c => decide (¬ c = '@'))).tail).reverse,
          (r.takeWhile (fun c => decide (¬ c = '@'))).reverse)
  else none

/-- Embeds `reposource.ParseGoDependency`
(`internal/conf/reposource/go_modules.go`): split on the last `@`, then
validate with `module.Check` when a version is present and
`module.CheckPath` otherwise.  The `GoDependency` wrapper around
`module.Version` adds no data, so the result is the `gomod.Version`
itself. -/
def ParseGoDependency (dependency : List Char) : Except (List Char) gomod.Version :=
  let v : gomod.Version :=
    match splitLastAt dependency with
    | none => { path := dependency, version := [] }
    | some pv => { path := pv.1, version := pv.2 }
  match (if ¬ v.version = [] then gomod.Check v.path v.version else gomod.CheckPath v.path) with
  | some e => Except.error e
  | none => Except.ok v

/-- Embeds `GoDependency.PackageSyntax`: the module path. -/
def PackageSyntax (d : gomod.Version) : List Char := d.path

/-- Embeds `GoDependency.PackageVersion`. -/
def PackageVersion (d : gomod.Version) : List Char := d.version

/-- Embeds `GoDependency.PackageManagerSyntax`: `module.Version.String`. -/
def PackageManagerSyntax (d : gomod.Version) : List Char := d.string

/-- Embeds `GoDependency.RepoName`: the fixed `go/` scheme tag followed by
the module path. -/
def RepoName (d : gomod.Version) : List Char := ("go/").toList ++ d.path

/-- Embeds `GoDependency.Scheme`. -/
def Scheme : List Char := ("go").toList

end reposource

namespace gomodproxy

/-- The HTTP response an endpoint gives to the one request being
modelled. -/
structure Resp where
  status : Nat
  body : List Char
deriving DecidableEq

/-- One configured proxy endpoint together with its behaviour for the
request being modelled: `waitErr` is the error, if any, with which the
rate limiter's `Wait` fails (cancellation), and `resp` the HTTP response
the endpoint then returns. -/
structure Endpoint where
  url : List Char
  waitErr : Option (List Char)
  resp : Resp
deriving DecidableEq

/-- Embeds `gomodproxy.Error`: path, status code and body of a non-200
response. -/
structure ProxyErr where
  path : List Char
  code : Nat
  message : List Char
deriving DecidableEq

/-- Embeds `Error.IsNotFound`: status 404 or 410.  `errcode.IsNotFound`
(not among the sampled sources) is modelled from the spec as delegating
to this predicate for proxy errors: "derived predicate IsNotFound() true
iff status is 404 or 410". -/
def ProxyErr.IsNotFound (e : ProxyErr) : Bool :=
  decide (e.code = 404) || decide (e.code = 410)

/-- An error escaping the shared `get` routine: a rate-limiter wait
failure or a proxy response error. -/
inductive GetErr where
  | limiter (msg : List Char)
  | proxy (e : ProxyErr)
deriving DecidableEq

/-- Embeds `path.Join` on two non-empty segments as slash joining.  Go's
`path.Join` additionally cleans `.`/`..` segments; no request issued by
the sampled code contains such segments and no claim depends on
cleaning. -/
def joinPath (a b : List Char) : List Char := a ++ '/' :: b

/-- Slash-joins the variadic `paths ...string` segments
(`path.Join(paths...)`). -/
def joinSegs : List (List Char) → List Char
  | [] => []
  | [s] => s
  | s :: rest => s ++ '/' :: joinSegs rest

/-- Embeds `Client.do` (named `doReq` because `do` is reserved in Lean):
read the body, then treat any status other than 200 as an error carrying
the request path, the status code and the body.  Transport failures of
the underlying `Doer` are outside the model: every contacted endpoint
returns an HTTP response. -/
def doReq (reqPath : List Char) (r : Resp) : Except ProxyErr (List Char) :=
  if ¬ r.status = 200 then Except.error ⟨reqPath, r.status, r.body⟩ else Except.ok r.body

/-- The outcome of the shared `get` routine.  `body` and `err` are the
`(io.Reader, error)` pair Go returns; `contacted` additionally records, in
order, the URLs of the endpoints whose HTTP request was actually issued
(instrumentation for the failover claims; the Go code does not return
it). -/
structure GetResult where
  body : Option (List Char)
  err : Option GetErr
  contacted : List (List Char)
deriving DecidableEq

/-- The endpoint loop of `Client.get`: `cur` is the current
`(respBody, err)` pair, consulted only when the list is exhausted (the
loop falls through with the last values).  A failed limiter wait returns
immediately; a 404/410 response continues with the next endpoint; any
other outcome breaks. -/
def getLoop (reqSeg : List Char) (cur : Option (List Char) × Option GetErr) :
    List Endpoint → GetResult
  | [] => ⟨cur.1, cur.2, []⟩
  | ep :: rest =>
    match ep.waitErr with
    | some m => ⟨none, some (GetErr.limiter m), []⟩
    | none =>
      match doReq (joinPath ep.url reqSeg) ep.resp with
      | Except.ok body => ⟨some body, none, [ep.url]⟩
      | Except.error e =>
        if e.IsNotFound then
          let r := getLoop reqSeg (none, some (GetErr.proxy e)) rest
          ⟨r.body, r.err, ep.url :: r.contacted⟩
        else ⟨none, some (GetErr.proxy e), [ep.url]⟩

/-- Embeds `Client.get`: iterate the configured endpoints in order
against the joined path segments. -/
def get (eps : List Endpoint) (paths : List (List Char)) : GetResult :=
  getLoop (joinSegs paths) (none, none) eps

/-- Where `Client.GetVersion` ends up: either returning `get`'s error, or
proceeding to JSON-decode the returned body (`none` models the nil
`io.Reader`). -/
inductive GetVersionStep where
  | fail (e : GetErr)
  | decode (body : Option (List Char))
deriving DecidableEq

/-- Embeds the control flow of `Client.GetVersion`: fetch
`{mod}/@v/{version}.info` via `get`; on error return it, otherwise decode
from the body reader.  The JSON decoding itself is outside the model. -/
def GetVersion (eps : List Endpoint) (mod version : List Char) : GetVersionStep :=
  let r := get eps [mod, ("@v").toList, version ++ (".info").toList]
  match r.err with
  | some e => GetVersionStep.fail e
  | none => GetVersionStep.decode r.body

end gomodproxy

namespace repos

/-- Errors carried by emitted `SourceResult{Err: ...}` records. -/
inductive RunErr where
  | parseErr (msg : List Char)
  | proxyErr (e : gomodproxy.GetErr)
  | storeErr (msg : List Char)
deriving DecidableEq

/-- Embeds the fields of `types.Repo` set by `makeRepo`. -/
structure Repo where
  name : List Char
  uri : List Char
  externalID : List Char
  serviceID : List Char
  serviceType : List Char
  private_ : Bool
  sourceURN : List Char
  cloneURL : List Char
deriving DecidableEq

/-- Embeds `extsvc.TypeGoModules` (constant defined outside the sampled
sources; its exact value is irrelevant to every claim). -/
def typeGoModules : List Char := ("goModules").toList

/-- One result on the output stream: a repository record or an error
record. -/
inductive SourceResult where
  | repo (r : Repo)
  | err (e : RunErr)
deriving DecidableEq

/-- Embeds `GoModulesSource.makeRepo`: name, URI, external ID and clone
URL all derive from `RepoName`, and `Private` is `false`.  `urn` is
`s.svc.URN()`. -/
def makeRepo (urn : List Char) (dep : gomod.Version) : Repo :=
  let repoName := reposource.RepoName dep
  { name := repoName
    uri := repoName
    externalID := repoName
    serviceID := typeGoModules
    serviceType := typeGoModules
    private_ := false
    sourceURN := urn
    cloneURL := repoName }

/-- Embeds `goDependencies`: parse each configured dependency string in
order, returning the first parse error (the Go loop `return nil, err`s
immediately) or the list of parsed dependencies. -/
def goDependencies : List (List Char) → Except (List Char) (List gomod.Version)
  | [] => Except.ok []
  | d :: ds =>
    match reposource.ParseGoDependency d with
    | Except.error e => Except.error e
    | Except.ok dep =>
      match goDependencies ds with
      | Except.error e => Except.error e
      | Except.ok deps => Except.ok (dep :: deps)

/-- A row of the persisted dependency store
(`ListDependencyRepos` result item). -/
structure DepRepo where
  id : Nat
  name : List Char
  version : List Char
deriving DecidableEq

/-- Per-namespace version metadata (`gopkg.PackageInfo`): the set of known
version keys of its `Versions` map, plus the description. -/
structure PackageInfo where
  versions : List (List Char)
  description : List Char
deriving DecidableEq

/-- The empty `PackageInfo` cached when a metadata fetch fails
(`&gopkg.PackageInfo{Versions: map[...]{}}`). -/
def emptyPackageInfo : PackageInfo := ⟨[], []⟩

/-- The in-run metadata cache `pkgVersions`, keyed by namespace. -/
def Cache := List (List Char × PackageInfo)

/-- Map lookup in the in-run cache. -/
def lookupNS (k : List Char) : Cache → Option PackageInfo
  | [] => none
  | (k', v) :: rest => if k' = k then some v else lookupNS k rest

/-- Embeds `dependenciesStore.GoModulesScheme` (constant defined outside
the sampled sources; its exact value is irrelevant to every claim). -/
def goScheme : List Char := ("gomod").toList

/-- One `ListDependencyRepos` call as issued by the engine. -/
structure StoreFetch where
  scheme : List Char
  after : Nat
  limit : Nat
  newestFirst : Bool
deriving DecidableEq

/-- Output of processing the rows of one store page. -/
structure ItemsOut where
  results : List SourceResult
  cache : Cache
  metaFetches : List (List Char)

/-- The per-row body of the Phase 2 loop: parse the stored name
(log-and-skip on failure), key the cache by the parsed module path
(`PackageSyntax`), lazily fetch metadata on a cache miss — caching an
empty info map when the fetch fails — and emit a repository record only
when the row's version is present in the metadata.  `gpi` is the
environment's answer to `client.GetPackageInfo` per namespace;
`metaFetches` records, in order, the namespaces actually fetched
upstream. -/
def processItems (gpi : List Char → Except (List Char) PackageInfo) (urn : List Char) :
    Cache → List DepRepo → ItemsOut
  | cache, [] => ⟨[], cache, []⟩
  | cache, r :: rest =>
    match reposource.ParseGoDependency r.name with
    | Except.error _ => processItems gpi urn cache rest
    | Except.ok parsed =>
      let pkgKey := reposource.PackageSyntax parsed
      match lookupNS pkgKey cache with
      | some info =>
        let out := processItems gpi urn cache rest
        if r.version ∈ info.versions then
          ⟨SourceResult.repo (makeRepo urn parsed) :: out.results, out.cache, out.metaFetches⟩
        else out
      | none =>
        match gpi pkgKey with
        | Except.error _ =>
          let out := processItems gpi urn ((pkgKey, emptyPackageInfo) :: cache) rest
          ⟨out.results, out.cache, pkgKey :: out.metaFetches⟩
        | Except.ok info =>
          let out := processItems gpi urn ((pkgKey, info) :: cache) rest
          if r.version ∈ info.versions then
            ⟨SourceResult.repo (makeRepo urn parsed) :: out.results, out.cache,
              pkgKey :: out.metaFetches⟩
          else ⟨out.results, out.cache, pkgKey :: out.metaFetches⟩

/-- The trace of a reconciliation run: the emitted result stream, the
store page requests issued, and the namespaces fetched upstream (the
latter two are instrumentation; the Go code only emits the stream). -/
structure RunTrace where
  results : List SourceResult
  storeFetches : List StoreFetch
  metaFetches : List (List Char)
deriving DecidableEq

/-- A placeholder row used only as the (unreachable) `getLastD` default on
pages already known non-empty. -/
def dfltRow : DepRepo := ⟨0, [], []⟩

/-- The Phase 2 pagination loop: request the next page (scheme tag, cursor
`after`, fixed limit 100, newest first); a store error emits a fatal
error record and returns; an empty page breaks; otherwise the cursor
advances to the last row's ID and the rows are processed.  The store's
behaviour is scripted as the list of pages it will return to successive
calls; the recursion is structural on that script, which exactly covers
every store that eventually fails or returns an empty page. -/
def phase2 (gpi : List Char → Except (List Char) PackageInfo) (urn : List Char) :
    Nat → Cache → List (Except (List Char) (List DepRepo)) → RunTrace
  | _, _, [] => ⟨[], [], []⟩
  | lastID, cache, page :: rest =>
    let fetch : StoreFetch := ⟨goScheme, lastID, 100, true⟩
    match page with
    | Except.error e => ⟨[SourceResult.err (RunErr.storeErr e)], [fetch], []⟩
    | Except.ok [] => ⟨[], [fetch], []⟩
    | Except.ok (item :: items) =>
      let pr := processItems gpi urn cache (item :: items)
      let newLast := ((item :: items).getLastD dfltRow).id
      let tr := phase2 gpi urn newLast pr.cache rest
      ⟨pr.results ++ tr.results, fetch :: tr.storeFetches, pr.metaFetches ++ tr.metaFetches⟩

/-- The environment of one reconciliation run: the configured static
dependency list, the proxy's answer to the Phase 1 `GetVersion` existence
check (an error or success per coordinate), the proxy's answer to the
Phase 2 `GetPackageInfo` metadata fetch per namespace, the scripted store
pages, and the external service URN. -/
structure RunCfg where
  dependencies : List (List Char)
  getVersion : List Char → List Char → Option gomodproxy.GetErr
  getPackageInfo : List Char → Except (List Char) PackageInfo
  pages : List (Except (List Char) (List DepRepo))
  urn : List Char

/-- The Phase 1 body for one parsed dependency: check existence via the
proxy; on failure emit an error record, on success emit the repository
record. -/
def phase1Step (gv : List Char → List Char → Option gomodproxy.GetErr) (urn : List Char)
    (dep : gomod.Version) : SourceResult :=
  match gv (reposource.PackageSyntax dep) (reposource.PackageVersion dep) with
  | some e => SourceResult.err (RunErr.proxyErr e)
  | none => SourceResult.repo (makeRepo urn dep)

/-- Embeds `GoModulesSource.ListRepos`: parse the whole static list up
front — a parse failure emits one error record and returns — then run
Phase 1 over the parsed dependencies and Phase 2 over the store pages
with cursor 0 and an empty in-run cache. -/
def ListRepos (cfg : RunCfg) : RunTrace :=
  match goDependencies cfg.dependencies with
  | Except.error e => ⟨[SourceResult.err (RunErr.parseErr e)], [], []⟩
  | Except.ok deps =>
    let p1 := deps.map (phase1Step cfg.getVersion cfg.urn)
    let p2 := phase2 cfg.getPackageInfo cfg.urn 0 [] cfg.pages
    ⟨p1 ++ p2.results, p2.storeFetches, p2.metaFetches⟩

/-- Counts the repository records in a result stream. -/
def countRepos (rs : List SourceResult) : Nat :=
  (rs.filter fun r => match r with | SourceResult.repo _ => true | _ => false).length

/-- Counts the error records in a result stream. -/
def countErrs (rs : List SourceResult) : Nat :=
  (rs.filter fun r => match r with | SourceResult.err _ => true | _ => false).length

end repos

/-! ## Derived definitions used by the claims -/

/-- The characters a valid semantic version can be built from. -/
def svAllowed (c : Char) : Prop := semver.isIdentChar c = true ∨ c = '.' ∨ c = '+'

/-- A coordinate the code itself considers valid: exactly the validation
`ParseGoDependency` applies — the path-only check when the version is
empty, `module.Check` otherwise. -/
abbrev ValidCoordinate (v : gomod.Version) : Prop :=
  (v.version = [] ∧ gomod.CheckPath v.path = none) ∨
  (¬ v.version = [] ∧ gomod.Check v.path v.version = none)

/-- A concrete valid coordinate used to instantiate the round-trip law. -/
def c4Coord : gomod.Version := ⟨("golang.org/x/mod").toList, ("v0.5.0").toList⟩

/-- The spec's Phase 1 scenario: the static dependency list
`["good@1.0.0", "!!!invalid!!!"]`, with a proxy that always succeeds and
a store that is immediately empty. -/
def cfgC1 : repos.RunCfg :=
  { dependencies := [("good@1.0.0").toList, ("!!!invalid!!!").toList]
    getVersion := fun _ _ => none
    getPackageInfo := fun _ => Except.error []
    pages := [Except.ok []]
    urn := ("urn").toList }

/-- A concrete endpoint answering 404. -/
def epA : gomodproxy.Endpoint := ⟨("proxy-a.example").toList, none, ⟨404, ("nf").toList⟩⟩

/-- A concrete endpoint answering 500. -/
def epB : gomodproxy.Endpoint := ⟨("proxy-b.example").toList, none, ⟨500, ("boom").toList⟩⟩

/-- A concrete endpoint answering 200. -/
def epC : gomodproxy.Endpoint := ⟨("proxy-c.example").toList, none, ⟨200, ("ok").toList⟩⟩

/-- A concrete 100-row store page with IDs 1..100. -/
def c5Page1 : List repos.DepRepo :=
  (List.range 100).map fun i => ⟨i + 1, ("golang.org/x/mod").toList, ("v0.5.0").toList⟩

/-- A concrete 100-row store page with IDs 101..200. -/
def c5Page2 : List repos.DepRepo :=
  (List.range 100).map fun i => ⟨i + 101, ("golang.org/x/mod").toList, ("v0.5.0").toList⟩

/-- Two concrete persisted rows naming the same module at different
versions. -/
def c6Row1 : repos.DepRepo := ⟨1, ("golang.org/x/mod").toList, ("v0.4.0").toList⟩

/-- Second row of the cache-reuse scenario. -/
def c6Row2 : repos.DepRepo := ⟨2, ("golang.org/x/mod").toList, ("v0.5.0").toList⟩

/-- Concrete per-namespace metadata knowing only version `v0.5.0`. -/
def c7Info : repos.PackageInfo := ⟨[("v0.5.0").toList], []⟩

/-- A concrete persisted row whose version is absent from `c7Info`. -/
def c7Row : repos.DepRepo := ⟨1, ("golang.org/x/mod").toList, ("v9.9.9").toList⟩

/-- A concrete persisted row for the metadata-fetch-failure scenario. -/
def c10Row : repos.DepRepo := ⟨2, ("golang.org/x/mod").toList, ("v0.5.0").toList⟩

/-- The number of occurrences of a namespace in a fetch trace. -/
def countNS (k : List Char) (l : List (List Char)) : Nat :=
  (l.filter fun x => decide (x = k)).length

/-- The persisted rows a run actually processes: the concatenation of the
scripted pages up to (excluding) the first store error or empty page,
mirroring the termination conditions of the Phase 2 loop. -/
def processedRows : List (Except (List Char) (List repos.DepRepo)) → List repos.DepRepo
  | [] => []
  | Except.error _ :: _ => []
  | Except.ok [] :: _ => []
  | Except.ok (x :: xs) :: rest => (x :: xs) ++ processedRows rest

/-! ## List scanning helpers -/

theorem takeWhile_app_all {p : Char → Bool} {a : List Char} (b : List Char)
    (h : ∀ c ∈ a, p c = true) : (a ++ b).takeWhile p = a ++ b.takeWhile p := by
  induction a with
  | nil => simp
  | cons x xs ih =>
    have hx : p x = true := h x (List.mem_cons_self x xs)
    simp only [List.cons_append, List.takeWhile_cons, hx, if_true]
    rw [ih fun c hc => h c (List.mem_cons_of_mem x hc)]

theorem dropWhile_app_all {p : Char → Bool} {a : List Char} (b : List Char)
    (h : ∀ c ∈ a, p c = true) : (a ++ b).dropWhile p = b.dropWhile p := by
  induction a with
  | nil => simp
  | cons x xs ih =>
    have hx : p x = true := h x (List.mem_cons_self x xs)
    simp only [List.cons_append, List.dropWhile_cons, hx, if_true]
    exact ih fun c hc => h c (List.mem_cons_of_mem x hc)

/-- If no `@` occurs in the input, `splitLastAt` finds nothing. -/
theorem splitLastAt_eq_none {s : List Char} (h : ¬ ('@') ∈ s) :
    reposource.splitLastAt s = none := by
  unfold reposource.splitLastAt
  simp only [List.mem_reverse]
  simp [h]

/-- With an `@`-free version part, `splitLastAt` splits a joined
coordinate back into its two halves. -/
theorem splitLastAt_app {path ver : List Char} (h : ¬ ('@') ∈ ver) :
    reposource.splitLastAt (path ++ '@' :: ver) = some (path, ver) := by
  have hrev : (path ++ '@' :: ver).reverse = ver.reverse ++ '@' :: path.reverse := by
    simp
  have hall : ∀ c ∈ ver.reverse, (fun c => decide (¬ c = '@')) c = true := by
    intro c hc
    simp only [decide_eq_true_eq]
    intro hEq
    exact h (by simpa [hEq] using (List.mem_reverse).1 hc)
  have htake : (ver.reverse ++ '@' :: path.reverse).takeWhile (fun c => decide (¬ c = '@'))
      = ver.reverse := by
    rw [takeWhile_app_all _ hall]
    simp [List.takeWhile_cons]
  have hdrop : (ver.reverse ++ '@' :: path.reverse).dropWhile (fun c => decide (¬ c = '@'))
      = '@' :: path.reverse := by
    rw [dropWhile_app_all _ hall]
    simp [List.dropWhile_cons]
  unfold reposource.splitLastAt
  rw [hrev]
  simp only [htake, hdrop, List.tail_cons, List.reverse_reverse]
  simp

/-- A successful parse of an `@`-free input keeps the whole input as the
path and leaves the version empty, having applied the path-only
validator. -/
theorem parse_no_at {s : List Char} (h : ¬ ('@') ∈ s) {v : gomod.Version}
    (hp : reposource.ParseGoDependency s = Except.ok v) :
    v = ⟨s, []⟩ ∧ gomod.CheckPath s = none := by
  unfold reposource.ParseGoDependency at hp
  rw [splitLastAt_eq_none h] at hp
  cases hc : gomod.CheckPath s with
  | some e => simp [hc] at hp
  | none =>
    simp only [hc] at hp
    simp at hp
    exact ⟨hp.symm, rfl⟩

/-! ## Characters of validated module paths -/

/-- A path element accepted by `checkElem` consists of `modPathOK`
characters. -/
theorem checkElem_all {e : List Char} (h : gomod.checkElem e = none) :
    e.all gomod.modPathOK = true := by
  unfold gomod.checkElem at h
  split_ifs at h <;> simp_all

/-- Every character covered by an accepting run of the element scan is a
path character or a slash. -/
theorem checkPathLoop_chars (rest : List Char) : ∀ elem,
    gomod.checkPathLoop elem rest = none →
    ∀ c, (c ∈ elem ∨ c ∈ rest) → (gomod.modPathOK c = true ∨ c = '/') := by
  induction rest with
  | nil =>
    intro elem h c hc
    unfold gomod.checkPathLoop at h
    rcases hc with hc | hc
    · exact Or.inl (List.all_eq_true.mp (checkElem_all h) c hc)
    · exact absurd hc (List.not_mem_nil c)
  | cons x xs ih =>
    intro elem h c hc
    unfold gomod.checkPathLoop at h
    by_cases hx : x = '/'
    · rw [if_pos hx] at h
      cases he : gomod.checkElem elem with
      | some e => rw [he] at h; exact absurd h (by simp)
      | none =>
        rw [he] at h
        rcases hc with hc | hc
        · exact Or.inl (List.all_eq_true.mp (checkElem_all he) c hc)
        · rcases List.mem_cons.mp hc with hc | hc
          · exact Or.inr (hc.trans hx)
          · exact ih [] h c (Or.inr hc)
    · rw [if_neg hx] at h
      rcases hc with hc | hc
      · exact ih (elem ++ [x]) h c (Or.inl (List.mem_append.mpr (Or.inl hc)))
      · rcases List.mem_cons.mp hc with hc | hc
        · exact ih (elem ++ [x]) h c (Or.inl (by simp [hc]))
        · exact ih (elem ++ [x]) h c (Or.inr hc)

/-- Characters of a path accepted by `checkPath`. -/
theorem checkPath_chars {p : List Char} (h : gomod.checkPath p = none) :
    ∀ c ∈ p, gomod.modPathOK c = true ∨ c = '/' := by
  intro c hc
  unfold gomod.checkPath at h
  split_ifs at h <;> try exact absurd h (by simp)
  exact checkPathLoop_chars p [] h c (Or.inr hc)

/-- A module path accepted by `CheckPath` contains no `@`. -/
theorem CheckPath_no_at {p : List Char} (h : gomod.CheckPath p = none) : ¬ ('@') ∈ p := by
  intro hat
  have hcp : gomod.checkPath p = none := by
    unfold gomod.CheckPath at h
    cases hc : gomod.checkPath p with
    | some e => simp [hc] at h
    | none => rfl
  rcases checkPath_chars hcp '@' hat with h1 | h1
  · exact absurd h1 (by decide)
  · exact absurd h1 (by decide)

/-! ## Characters of valid semantic versions -/

theorem digit_ident {c : Char} (h : isDigitB c = true) : semver.isIdentChar c = true := by
  simp [semver.isIdentChar, h]

/-- Decomposition and characters of a `parseInt` run. -/
theorem parseInt_spec {v t r : List Char} (h : semver.parseInt v = some (t, r)) :
    v = t ++ r ∧ ∀ c ∈ t, isDigitB c = true := by
  cases v with
  | nil => simp [semver.parseInt] at h
  | cons c cs =>
    simp only [semver.parseInt] at h
    split_ifs at h with hd hz
    simp only [Option.some.injEq, Prod.mk.injEq] at h
    obtain ⟨ht, hr⟩ := h
    constructor
    · rw [← ht, ← hr]
      simp [List.takeWhile_append_dropWhile]
    · intro x hx
      rw [← ht] at hx
      rcases List.mem_cons.mp hx with rfl | hx
      · exact hd
      · exact List.mem_takeWhile_imp hx

/-- Decomposition and characters of the prerelease scanning loop. -/
theorem preLoop_spec : ∀ (v seg t r : List Char), semver.preLoop seg v = some (t, r) →
    v = t ++ r ∧ ∀ c ∈ t, (semver.isIdentChar c = true ∨ c = '.') := by
  intro v
  induction v with
  | nil =>
    intro seg t r h
    simp only [semver.preLoop] at h
    split_ifs at h
    simp only [Option.some.injEq, Prod.mk.injEq] at h
    obtain ⟨ht, hr⟩ := h
    subst ht hr
    exact ⟨rfl, by simp⟩
  | cons c cs ih =>
    intro seg t r h
    simp only [semver.preLoop] at h
    by_cases hp : c = '+'
    · rw [if_pos hp] at h
      split_ifs at h
      simp only [Option.some.injEq, Prod.mk.injEq] at h
      obtain ⟨ht, hr⟩ := h
      subst ht hr
      exact ⟨rfl, by simp⟩
    · rw [if_neg hp] at h
      by_cases hcl : (semver.isIdentChar c || decide (c = '.')) = true
      · rw [if_neg (by simp [hcl])] at h
        by_cases hdot : c = '.'
        · rw [if_pos hdot] at h
          split_ifs at h
          cases hrec : semver.preLoop [] cs with
          | none => rw [hrec] at h; exact absurd h (by simp)
          | some pr =>
            obtain ⟨t', r'⟩ := pr
            rw [hrec] at h
            simp only [Option.some.injEq, Prod.mk.injEq] at h
            obtain ⟨ht, hr⟩ := h
            obtain ⟨hcs, hchars⟩ := ih [] t' r' hrec
            subst hr
            constructor
            · rw [← ht, hcs]; rfl
            · intro x hx
              rw [← ht] at hx
              rcases List.mem_cons.mp hx with rfl | hx
              · exact Or.inr hdot
              · exact hchars x hx
        · rw [if_neg hdot] at h
          cases hrec : semver.preLoop (seg ++ [c]) cs with
          | none => rw [hrec] at h; exact absurd h (by simp)
          | some pr =>
            obtain ⟨t', r'⟩ := pr
            rw [hrec] at h
            simp only [Option.some.injEq, Prod.mk.injEq] at h
            obtain ⟨ht, hr⟩ := h
            obtain ⟨hcs, hchars⟩ := ih (seg ++ [c]) t' r' hrec
            subst hr
            constructor
            · rw [← ht, hcs]; rfl
            · intro x hx
              rw [← ht] at hx
              rcases List.mem_cons.mp hx with rfl | hx
              · rcases (Bool.or_eq_true _ _).mp hcl with h1 | h1
                · exact Or.inl h1
                · exact Or.inr (of_decide_eq_true h1)
              · exact hchars x hx
      · rw [if_pos (by simp [hcl])] at h
        exact absurd h (by simp)

/-- Decomposition and characters of the build scanning loop. -/
theorem buildLoop_spec : ∀ (v seg t r : List Char), semver.buildLoop seg v = some (t, r) →
    v = t ++ r ∧ ∀ c ∈ t, (semver.isIdentChar c = true ∨ c = '.') := by
  intro v
  induction v with
  | nil =>
    intro seg t r h
    simp only [semver.buildLoop] at h
    split_ifs at h
    simp only [Option.some.injEq, Prod.mk.injEq] at h
    obtain ⟨ht, hr⟩ := h
    subst ht hr
    exact ⟨rfl, by simp⟩
  | cons c cs ih =>
    intro seg t r h
    simp only [semver.buildLoop] at h
    by_cases hcl : (semver.isIdentChar c || decide (c = '.')) = true
    · rw [if_neg (by simp [hcl])] at h
      by_cases hdot : c = '.'
      · rw [if_pos hdot] at h
        split_ifs at h
        cases hrec : semver.buildLoop [] cs with
        | none => rw [hrec] at h; exact absurd h (by simp)
        | some pr =>
          obtain ⟨t', r'⟩ := pr
          rw [hrec] at h
          simp only [Option.some.injEq, Prod.mk.injEq] at h
          obtain ⟨ht, hr⟩ := h
          obtain ⟨hcs, hchars⟩ := ih [] t' r' hrec
          subst hr
          constructor
          · rw [← ht, hcs]; rfl
          · intro x hx
            rw [← ht] at hx
            rcases List.mem_cons.mp hx with rfl | hx
            · exact Or.inr hdot
            · exact hchars x hx
      · rw [if_neg hdot] at h
        cases hrec : semver.buildLoop (seg ++ [c]) cs with
        | none => rw [hrec] at h; exact absurd h (by simp)
        | some pr =>
          obtain ⟨t', r'⟩ := pr
          rw [hrec] at h
          simp only [Option.some.injEq, Prod.mk.injEq] at h
          obtain ⟨ht, hr⟩ := h
          obtain ⟨hcs, hchars⟩ := ih (seg ++ [c]) t' r' hrec
          subst hr
          constructor
          · rw [← ht, hcs]; rfl
          · intro x hx
            rw [← ht] at hx
            rcases List.mem_cons.mp hx with rfl | hx
            · rcases (Bool.or_eq_true _ _).mp hcl with h1 | h1
              · exact Or.inl h1
              · exact Or.inr (of_decide_eq_true h1)
            · exact hchars x hx
    · rw [if_pos (by simp [hcl])] at h
      exact absurd h (by simp)

/-- Decomposition and characters of `parsePrerelease`. -/
theorem parsePrerelease_spec {v t r : List Char} (h : semver.parsePrerelease v = some (t, r)) :
    v = t ++ r ∧ ∀ c ∈ t, svAllowed c := by
  cases v with
  | nil => simp [semver.parsePrerelease] at h
  | cons c cs =>
    simp only [semver.parsePrerelease] at h
    split_ifs at h with hc
    cases hrec : semver.preLoop [] cs with
    | none => rw [hrec] at h; exact absurd h (by simp)
    | some pr =>
      obtain ⟨t', r'⟩ := pr
      rw [hrec] at h
      simp only [Option.some.injEq, Prod.mk.injEq] at h
      obtain ⟨ht, hr⟩ := h
      obtain ⟨hcs, hchars⟩ := preLoop_spec cs [] t' r' hrec
      subst hr
      constructor
      · rw [← ht, hc, hcs]; rfl
      · intro x hx
        rw [← ht] at hx
        rcases List.mem_cons.mp hx with rfl | hx
        · exact Or.inl (by decide)
        · rcases hchars x hx with h1 | h1
          · exact Or.inl h1
          · exact Or.inr (Or.inl h1)

/-- Decomposition and characters of `parseBuild`. -/
theorem parseBuild_spec {v t r : List Char} (h : semver.parseBuild v = some (t, r)) :
    v = t ++ r ∧ ∀ c ∈ t, svAllowed c := by
  cases v with
  | nil => simp [semver.parseBuild] at h
  | cons c cs =>
    simp only [semver.parseBuild] at h
    split_ifs at h with hc
    cases hrec : semver.buildLoop [] cs with
    | none => rw [hrec] at h; exact absurd h (by simp)
    | some pr =>
      obtain ⟨t', r'⟩ := pr
      rw [hrec] at h
      simp only [Option.some.injEq, Prod.mk.injEq] at h
      obtain ⟨ht, hr⟩ := h
      obtain ⟨hcs, hchars⟩ := buildLoop_spec cs [] t' r' hrec
      subst hr
      constructor
      · rw [← ht, hc, hcs]; rfl
      · intro x hx
        rw [← ht] at hx
        rcases List.mem_cons.mp hx with rfl | hx
        · exact Or.inr (Or.inr rfl)
        · rcases hchars x hx with h1 | h1
          · exact Or.inl h1
          · exact Or.inr (Or.inl h1)

/-- Every character of a string accepted by `semver.parse` is an allowed
semantic-version character. -/
theorem parse_chars {v : List Char} {p : semver.Parsed} (h : semver.parse v = some p) :
    ∀ c ∈ v, svAllowed c := by
  cases v with
  | nil => simp [semver.parse] at h
  | cons c w =>
    simp only [semver.parse] at h
    split_ifs at h with hc
    cases h1 : semver.parseInt w with
    | none => rw [h1] at h; exact absurd h (by simp)
    | some pr1 =>
      obtain ⟨major, r1⟩ := pr1
      rw [h1] at h
      simp only [] at h
      obtain ⟨hw, hmaj⟩ := parseInt_spec h1
      intro x hx
      rcases List.mem_cons.mp hx with rfl | hx
      · exact Or.inl (by rw [hc]; decide)
      · rw [hw] at hx
        rcases List.mem_append.mp hx with hx | hx
        · exact Or.inl (digit_ident (hmaj x hx))
        · cases r1 with
          | nil => exact absurd hx (List.not_mem_nil x)
          | cons d w2 =>
            simp only [] at h
            split_ifs at h with hd
            cases h2 : semver.parseInt w2 with
            | none => rw [h2] at h; exact absurd h (by simp)
            | some pr2 =>
              obtain ⟨minor, r2⟩ := pr2
              rw [h2] at h
              simp only [] at h
              obtain ⟨hw2, hmin⟩ := parseInt_spec h2
              rcases List.mem_cons.mp hx with rfl | hx
              · exact Or.inr (Or.inl hd)
              · rw [hw2] at hx
                rcases List.mem_append.mp hx with hx | hx
                · exact Or.inl (digit_ident (hmin x hx))
                · cases r2 with
                  | nil => exact absurd hx (List.not_mem_nil x)
                  | cons e w3 =>
                    simp only [] at h
                    split_ifs at h with he
                    cases h3 : semver.parseInt w3 with
                    | none => rw [h3] at h; exact absurd h (by simp)
                    | some pr3 =>
                      obtain ⟨patch, r3⟩ := pr3
                      rw [h3] at h
                      simp only [] at h
                      obtain ⟨hw3, hpat⟩ := parseInt_spec h3
                      rcases List.mem_cons.mp hx with rfl | hx
                      · exact Or.inr (Or.inl he)
                      · rw [hw3] at hx
                        rcases List.mem_append.mp hx with hx | hx
                        · exact Or.inl (digit_ident (hpat x hx))
                        · cases h4 : (if r3.head? = some '-' then
                              semver.parsePrerelease r3 else some ([], r3)) with
                          | none => rw [h4] at h; exact absurd h (by simp)
                          | some pr4 =>
                            obtain ⟨pre, r4⟩ := pr4
                            rw [h4] at h
                            simp only [] at h
                            have hr3 : r3 = pre ++ r4 ∧ ∀ c ∈ pre, svAllowed c := by
                              split_ifs at h4 with hh
                              · exact parsePrerelease_spec h4
                              · simp only [Option.some.injEq, Prod.mk.injEq] at h4
                                obtain ⟨hpre, hr4⟩ := h4
                                subst hpre hr4
                                exact ⟨rfl, by simp⟩
                            obtain ⟨hr3eq, hprechars⟩ := hr3
                            rw [hr3eq] at hx
                            rcases List.mem_append.mp hx with hx | hx
                            · exact hprechars x hx
                            · cases h5 : (if r4.head? = some '+' then
                                  semver.parseBuild r4 else some ([], r4)) with
                              | none => rw [h5] at h; exact absurd h (by simp)
                              | some pr5 =>
                                obtain ⟨bld, r5⟩ := pr5
                                rw [h5] at h
                                simp only [] at h
                                have hr4 : r4 = bld ++ r5 ∧ ∀ c ∈ bld, svAllowed c := by
                                  split_ifs at h5 with hh
                                  · exact parseBuild_spec h5
                                  · simp only [Option.some.injEq, Prod.mk.injEq] at h5
                                    obtain ⟨hbld, hr5⟩ := h5
                                    subst hbld hr5
                                    exact ⟨rfl, by simp⟩
                                obtain ⟨hr4eq, hbldchars⟩ := hr4
                                split_ifs at h with h5e
                                rw [hr4eq, h5e] at hx
                                rw [List.append_nil] at hx
                                exact hbldchars x hx

/-- A valid semantic version contains no `@`. -/
theorem IsValid_no_at {ver : List Char} (h : semver.IsValid ver = true) : ¬ ('@') ∈ ver := by
  intro hat
  unfold semver.IsValid at h
  cases hp : semver.parse ver with
  | none => rw [hp] at h; exact absurd h (by simp)
  | some p =>
    rcases parse_chars hp '@' hat with h1 | h1 | h1
    · exact absurd h1 (by decide)
    · exact absurd h1 (by decide)
    · exact absurd h1 (by decide)

/-! ## Claim C3 -/

/-- C3 counterexample: the `@`-free input `golang.org/x/mod` parses with
the whole string as the namespace but with the EMPTY version string, not
the sentinel `"latest"` the claim asserts. -/
theorem c3_counterexample :
    reposource.ParseGoDependency (("golang.org/x/mod").toList)
      = Except.ok ⟨("golang.org/x/mod").toList, []⟩
    ∧ ¬ ([] : List Char) = ("latest").toList :=
  ⟨rfl, by decide⟩

/-- C3 (amended): for every input containing no `@`, `Parse` splits
nothing off and takes the whole string as the namespace, and the
resulting coordinate's version is the EMPTY string (the path-only
validator having been applied) — not the sentinel `"latest"`. -/
theorem c3_amended (s : List Char) (v : gomod.Version) (h : ¬ ('@') ∈ s)
    (hp : reposource.ParseGoDependency s = Except.ok v) :
    v.path = s ∧ v.version = [] ∧ ¬ v.version = ("latest").toList
      ∧ gomod.CheckPath s = none := by
  obtain ⟨rfl, hc⟩ := parse_no_at h hp
  exact ⟨rfl, rfl, (by decide : ¬ ([] : List Char) = ("latest").toList), hc⟩

/-- Witness for `c3_amended` at the input `golang.org/x/mod`. -/
theorem c3_amended_witness :
    (¬ ('@') ∈ (("golang.org/x/mod").toList)) ∧
    ((⟨("golang.org/x/mod").toList, []⟩ : gomod.Version).path = ("golang.org/x/mod").toList ∧
     (⟨("golang.org/x/mod").toList, []⟩ : gomod.Version).version = [] ∧
     ¬ (⟨("golang.org/x/mod").toList, []⟩ : gomod.Version).version = ("latest").toList ∧
     gomod.CheckPath (("golang.org/x/mod").toList) = none) :=
  ⟨by decide,
   c3_amended (("golang.org/x/mod").toList) ⟨("golang.org/x/mod").toList, []⟩ (by decide) rfl⟩

/-! ## Claim C4 -/

/-- A passing `module.Check` implies a passing `CheckPath` and a valid
semantic version. -/
theorem Check_parts {p ver : List Char} (h : gomod.Check p ver = none) :
    gomod.CheckPath p = none ∧ semver.IsValid ver = true := by
  unfold gomod.Check at h
  cases hc : gomod.CheckPath p with
  | some e => rw [hc] at h; exact absurd h (by simp)
  | none =>
    rw [hc] at h
    simp only [] at h
    refine ⟨rfl, ?_⟩
    by_cases hiv : semver.IsValid ver
    · exact hiv
    · rw [if_neg (by simpa using hiv)] at h
      exact absurd h (by simp)

/-- C4 (confirmed): the round-trip law.  For every coordinate the code
considers valid, parsing its canonical `PackageManagerSyntax` rendering
yields the coordinate back. -/
theorem c4_roundtrip (v : gomod.Version) (hv : ValidCoordinate v) :
    reposource.ParseGoDependency (reposource.PackageManagerSyntax v) = Except.ok v := by
  obtain ⟨p, ver⟩ := v
  rcases hv with ⟨he, hcp⟩ | ⟨hne, hck⟩
  · simp only at he
    subst he
    have hpm : reposource.PackageManagerSyntax ⟨p, []⟩ = p := by
      simp [reposource.PackageManagerSyntax, gomod.Version.string]
    rw [hpm]
    have hno : ¬ ('@') ∈ p := CheckPath_no_at hcp
    unfold reposource.ParseGoDependency
    rw [splitLastAt_eq_none hno]
    simp [hcp]
  · simp only at hne hck
    obtain ⟨hcp, hiv⟩ := Check_parts hck
    have hno : ¬ ('@') ∈ ver := IsValid_no_at hiv
    have hpm : reposource.PackageManagerSyntax ⟨p, ver⟩ = p ++ '@' :: ver := by
      simp [reposource.PackageManagerSyntax, gomod.Version.string, hne]
    rw [hpm]
    unfold reposource.ParseGoDependency
    rw [splitLastAt_app hno]
    simp [hne, hck]

/-- Witness for `c4_roundtrip` at the coordinate
`golang.org/x/mod@v0.5.0`. -/
theorem c4_roundtrip_witness :
    ValidCoordinate c4Coord ∧
      reposource.ParseGoDependency (reposource.PackageManagerSyntax c4Coord)
        = Except.ok c4Coord :=
  ⟨by decide, c4_roundtrip c4Coord (by decide)⟩

/-! ## Claims C2 and C9: the proxy client -/

/-- The endpoint loop ignores the carried `(respBody, err)` pair on a
non-empty endpoint list. -/
theorem getLoop_cur {reqSeg : List Char} (cur cur' : Option (List Char) × Option gomodproxy.GetErr)
    (ep : gomodproxy.Endpoint) (rest : List gomodproxy.Endpoint) :
    gomodproxy.getLoop reqSeg cur (ep :: rest) = gomodproxy.getLoop reqSeg cur' (ep :: rest) := rfl

/-- Skipping a 404/410 endpoint at the end of the list: the loop falls
through and reports this endpoint's not-found error. -/
theorem getLoop_notfound_nil {reqSeg : List Char} {ep : gomodproxy.Endpoint}
    (cur : Option (List Char) × Option gomodproxy.GetErr)
    (hwait : ep.waitErr = none) (hnf : ep.resp.status = 404 ∨ ep.resp.status = 410) :
    gomodproxy.getLoop reqSeg cur [ep] =
      ⟨none, some (gomodproxy.GetErr.proxy
        ⟨gomodproxy.joinPath ep.url reqSeg, ep.resp.status, ep.resp.body⟩), [ep.url]⟩ := by
  have hs : ¬ ep.resp.status = 200 := by rcases hnf with h | h <;> omega
  have hnfb : gomodproxy.ProxyErr.IsNotFound
      ⟨gomodproxy.joinPath ep.url reqSeg, ep.resp.status, ep.resp.body⟩ = true := by
    rcases hnf with h | h <;> simp [gomodproxy.ProxyErr.IsNotFound, h]
  simp [gomodproxy.getLoop, hwait, gomodproxy.doReq, hs, hnfb]

/-- Skipping a 404/410 endpoint with endpoints remaining: the loop records
the contact and continues with the rest. -/
theorem getLoop_notfound_cons {reqSeg : List Char} {ep y : gomodproxy.Endpoint}
    {ys : List gomodproxy.Endpoint} (cur : Option (List Char) × Option gomodproxy.GetErr)
    (hwait : ep.waitErr = none) (hnf : ep.resp.status = 404 ∨ ep.resp.status = 410) :
    gomodproxy.getLoop reqSeg cur (ep :: y :: ys) =
      ⟨(gomodproxy.getLoop reqSeg (none, none) (y :: ys)).body,
       (gomodproxy.getLoop reqSeg (none, none) (y :: ys)).err,
       ep.url :: (gomodproxy.getLoop reqSeg (none, none) (y :: ys)).contacted⟩ := by
  have hs : ¬ ep.resp.status = 200 := by rcases hnf with h | h <;> omega
  have hdo : gomodproxy.doReq (gomodproxy.joinPath ep.url reqSeg) ep.resp =
      Except.error ⟨gomodproxy.joinPath ep.url reqSeg, ep.resp.status, ep.resp.body⟩ := by
    simp [gomodproxy.doReq, hs]
  have hnfb : gomodproxy.ProxyErr.IsNotFound
      ⟨gomodproxy.joinPath ep.url reqSeg, ep.resp.status, ep.resp.body⟩ = true := by
    rcases hnf with h | h <;> simp [gomodproxy.ProxyErr.IsNotFound, h]
  conv_lhs => rw [gomodproxy.getLoop]
  rw [hwait]
  simp only []
  rw [hdo]
  simp only []
  rw [if_pos hnfb]
  rfl

/-- A hard-error endpoint (non-200, non-404/410) stops the loop at once
with its proxy error. -/
theorem getLoop_hard {reqSeg : List Char} {ep : gomodproxy.Endpoint}
    (rest : List gomodproxy.Endpoint) (cur : Option (List Char) × Option gomodproxy.GetErr)
    (hwait : ep.waitErr = none) (h200 : ¬ ep.resp.status = 200)
    (h404 : ¬ ep.resp.status = 404) (h410 : ¬ ep.resp.status = 410) :
    gomodproxy.getLoop reqSeg cur (ep :: rest) =
      ⟨none, some (gomodproxy.GetErr.proxy
        ⟨gomodproxy.joinPath ep.url reqSeg, ep.resp.status, ep.resp.body⟩), [ep.url]⟩ := by
  have hnfb : gomodproxy.ProxyErr.IsNotFound
      ⟨gomodproxy.joinPath ep.url reqSeg, ep.resp.status, ep.resp.body⟩ = false := by
    simp [gomodproxy.ProxyErr.IsNotFound, h404, h410]
  simp [gomodproxy.getLoop, hwait, gomodproxy.doReq, h200, hnfb]

/-- A 200 endpoint stops the loop at once with its body. -/
theorem getLoop_ok {reqSeg : List Char} {ep : gomodproxy.Endpoint}
    (rest : List gomodproxy.Endpoint) (cur : Option (List Char) × Option gomodproxy.GetErr)
    (hwait : ep.waitErr = none) (h200 : ep.resp.status = 200) :
    gomodproxy.getLoop reqSeg cur (ep :: rest) = ⟨some ep.resp.body, none, [ep.url]⟩ := by
  simp [gomodproxy.getLoop, hwait, gomodproxy.doReq, h200]

/-- Exhausting an all-not-found endpoint list returns the LAST not-found
error, having contacted every endpoint in order. -/
theorem getLoop_all_notfound {reqSeg : List Char} : ∀ (l : List gomodproxy.Endpoint)
    (ep : gomodproxy.Endpoint),
    (∀ x ∈ l ++ [ep], x.waitErr = none ∧ (x.resp.status = 404 ∨ x.resp.status = 410)) →
    gomodproxy.getLoop reqSeg (none, none) (l ++ [ep]) =
      ⟨none, some (gomodproxy.GetErr.proxy
        ⟨gomodproxy.joinPath ep.url reqSeg, ep.resp.status, ep.resp.body⟩),
        (l ++ [ep]).map (fun x => x.url)⟩ := by
  intro l
  induction l with
  | nil =>
    intro ep hall
    obtain ⟨hw, hnf⟩ := hall ep (by simp)
    rw [List.nil_append, getLoop_notfound_nil (none, none) hw hnf]
    simp
  | cons x xs ih =>
    intro ep hall
    obtain ⟨hw, hnf⟩ := hall x (by simp)
    have hih := ih ep (fun z hz => hall z (List.mem_cons_of_mem x hz))
    rw [List.cons_append]
    cases hxe : xs ++ [ep] with
    | nil => exact absurd hxe (by simp)
    | cons y ys =>
      rw [hxe] at hih
      rw [getLoop_notfound_cons (none, none) hw hnf, hih]
      simp

/-- Skipping a not-found prefix: the loop contacts the prefix in order and
then behaves as the loop over the (non-empty) remainder. -/
theorem getLoop_skip_pre {reqSeg : List Char} : ∀ (pre : List gomodproxy.Endpoint)
    (y : gomodproxy.Endpoint) (ys : List gomodproxy.Endpoint),
    (∀ x ∈ pre, x.waitErr = none ∧ (x.resp.status = 404 ∨ x.resp.status = 410)) →
    gomodproxy.getLoop reqSeg (none, none) (pre ++ y :: ys) =
      ⟨(gomodproxy.getLoop reqSeg (none, none) (y :: ys)).body,
       (gomodproxy.getLoop reqSeg (none, none) (y :: ys)).err,
       pre.map (fun x => x.url) ++ (gomodproxy.getLoop reqSeg (none, none) (y :: ys)).contacted⟩ := by
  intro pre
  induction pre with
  | nil => intro y ys _; simp
  | cons x xs ih =>
    intro y ys hall
    obtain ⟨hw, hnf⟩ := hall x (by simp)
    have hih := ih y ys (fun w hw2 => hall w (List.mem_cons_of_mem x hw2))
    rw [List.cons_append]
    cases hxe : xs ++ y :: ys with
    | nil => exact absurd hxe (by simp)
    | cons z zs =>
      rw [hxe] at hih
      rw [getLoop_notfound_cons (none, none) hw hnf, hih]
      simp

/-- C2 (confirmed): endpoint failover.  With no rate-limit cancellation,
the shared `get` routine tries endpoints in configured order; a 404/410
response yields a NotFound-class proxy error and the routine continues,
so an all-not-found list returns the last endpoint's not-found error
having contacted every endpoint; any other non-2xx (indeed any non-200)
response yields a `ProxyError` carrying the request path, status code and
body, and stops without contacting further endpoints; a 200 response
stops with the body. -/
theorem c2_failover (eps : List gomodproxy.Endpoint) (paths : List (List Char))
    (hw : ∀ ep ∈ eps, ep.waitErr = none) :
    ((∀ ep ∈ eps, ep.resp.status = 404 ∨ ep.resp.status = 410) →
      ∀ (pre : List gomodproxy.Endpoint) (ep : gomodproxy.Endpoint), eps = pre ++ [ep] →
        gomodproxy.get eps paths =
          ⟨none, some (gomodproxy.GetErr.proxy
              ⟨gomodproxy.joinPath ep.url (gomodproxy.joinSegs paths),
                ep.resp.status, ep.resp.body⟩),
            eps.map (fun x => x.url)⟩ ∧
          gomodproxy.ProxyErr.IsNotFound
              ⟨gomodproxy.joinPath ep.url (gomodproxy.joinSegs paths),
                ep.resp.status, ep.resp.body⟩ = true) ∧
    (∀ (pre : List gomodproxy.Endpoint) (ep : gomodproxy.Endpoint)
        (post : List gomodproxy.Endpoint), eps = pre ++ ep :: post →
      (∀ x ∈ pre, x.resp.status = 404 ∨ x.resp.status = 410) →
      ¬ ep.resp.status = 200 → ¬ ep.resp.status = 404 → ¬ ep.resp.status = 410 →
      gomodproxy.get eps paths =
        ⟨none, some (gomodproxy.GetErr.proxy
            ⟨gomodproxy.joinPath ep.url (gomodproxy.joinSegs paths),
              ep.resp.status, ep.resp.body⟩),
          pre.map (fun x => x.url) ++ [ep.url]⟩) ∧
    (∀ (pre : List gomodproxy.Endpoint) (ep : gomodproxy.Endpoint)
        (post : List gomodproxy.Endpoint), eps = pre ++ ep :: post →
      (∀ x ∈ pre, x.resp.status = 404 ∨ x.resp.status = 410) →
      ep.resp.status = 200 →
      gomodproxy.get eps paths =
        ⟨some ep.resp.body, none, pre.map (fun x => x.url) ++ [ep.url]⟩) := by
  refine ⟨?_, ?_, ?_⟩
  · intro hall pre ep heq
    subst heq
    constructor
    · exact getLoop_all_notfound pre ep fun x hx => ⟨hw x hx, hall x hx⟩
    · obtain h := hall ep (by simp)
      rcases h with h | h <;> simp [gomodproxy.ProxyErr.IsNotFound, h]
  · intro pre ep post heq hpre h200 h404 h410
    subst heq
    unfold gomodproxy.get
    rw [getLoop_skip_pre pre ep post
      fun x hx => ⟨hw x (List.mem_append.mpr (Or.inl hx)), hpre x hx⟩]
    rw [getLoop_hard post (none, none)
      (hw ep (List.mem_append.mpr (Or.inr (List.mem_cons_self ep post)))) h200 h404 h410]
  · intro pre ep post heq hpre h200
    subst heq
    unfold gomodproxy.get
    rw [getLoop_skip_pre pre ep post
      fun x hx => ⟨hw x (List.mem_append.mpr (Or.inl hx)), hpre x hx⟩]
    rw [getLoop_ok post (none, none)
      (hw ep (List.mem_append.mpr (Or.inr (List.mem_cons_self ep post)))) h200]

/-- C9 (confirmed): with an empty configured endpoint list, `get` returns
neither a body nor an error (the Go `(nil, nil)`), so `GetVersion` does
not take its error branch and proceeds to decode from the nil reader. -/
theorem c9_empty_endpoints (paths : List (List Char)) (mod version : List Char) :
    gomodproxy.get [] paths = ⟨none, none, []⟩ ∧
    gomodproxy.GetVersion [] mod version = gomodproxy.GetVersionStep.decode none :=
  ⟨rfl, rfl⟩

/-- Witness for `c2_failover`: with endpoints answering 404, 500 and 200
in that order, the run stops at the 500 with its proxy error and never
contacts the third endpoint. -/
theorem c2_failover_witness :
    (∀ ep ∈ [epA, epB, epC], ep.waitErr = none) ∧
    gomodproxy.get [epA, epB, epC] [("m").toList] =
      ⟨none, some (gomodproxy.GetErr.proxy
        ⟨gomodproxy.joinPath epB.url (gomodproxy.joinSegs [("m").toList]),
          epB.resp.status, epB.resp.body⟩),
        [epA.url, epB.url]⟩ := by
  refine ⟨by decide, ?_⟩
  have h := (c2_failover [epA, epB, epC] [("m").toList] (by decide)).2.1
  have h2 := h [epA] epB [epC] rfl (by decide) (by decide) (by decide) (by decide)
  simpa using h2

/-! ## Claim C1 -/

/-- C1 counterexample: on the static list `["good@1.0.0", "!!!invalid!!!"]`
the engine emits ZERO repository records and exactly one error record
(the run aborts on the first parse failure), not one repository record
followed by one parse-error record as claimed. -/
theorem c1_counterexample :
    repos.countRepos (repos.ListRepos cfgC1).results = 0 ∧
    repos.countErrs (repos.ListRepos cfgC1).results = 1 ∧
    (repos.ListRepos cfgC1).results.length = 1 := by
  decide

/-- C1 (amended): Phase 1 parses the whole static list up front and
aborts the run on the first parse failure, emitting exactly one error
record and nothing else — no repository records, no store fetches, no
metadata fetches. -/
theorem c1_amended (cfg : repos.RunCfg) (e : List Char)
    (h : repos.goDependencies cfg.dependencies = Except.error e) :
    repos.ListRepos cfg =
      ⟨[repos.SourceResult.err (repos.RunErr.parseErr e)], [], []⟩ := by
  unfold repos.ListRepos
  rw [h]

/-- Witness for `c1_amended` at the spec's scenario list (where already
the first entry `good@1.0.0` fails Go module validation). -/
theorem c1_amended_witness :
    repos.goDependencies cfgC1.dependencies
      = Except.error (("missing dot in first path element").toList) ∧
    repos.ListRepos cfgC1 =
      ⟨[repos.SourceResult.err
          (repos.RunErr.parseErr (("missing dot in first path element").toList))], [], []⟩ :=
  ⟨rfl, c1_amended cfgC1 _ rfl⟩

/-! ## Claim C5 -/

/-- C5 (confirmed): Phase 2 pagination.  The cursor starts at 0, every
store request carries the scheme tag, a limit of 100 and newest-first
ordering, the cursor advances to the ID of the last row of each non-empty
page, and the loop stops at the first empty page — pages of sizes
`[100, 100, 0]` cause exactly 3 fetches regardless of what the store
would have returned afterwards.  A store error causes one fetch, a fatal
error record, and termination. -/
theorem c5_pagination (deps : List (List Char)) (ds : List gomod.Version)
    (gv : List Char → List Char → Option gomodproxy.GetErr)
    (gpi : List Char → Except (List Char) repos.PackageInfo) (urn : List Char)
    (hdeps : repos.goDependencies deps = Except.ok ds)
    (p1 p2 : List repos.DepRepo) (rest : List (Except (List Char) (List repos.DepRepo)))
    (h1 : p1.length = 100) (h2 : p2.length = 100) :
    (repos.ListRepos
        ⟨deps, gv, gpi, Except.ok p1 :: Except.ok p2 :: Except.ok [] :: rest, urn⟩).storeFetches
      = [⟨repos.goScheme, 0, 100, true⟩,
         ⟨repos.goScheme, (p1.getLastD repos.dfltRow).id, 100, true⟩,
         ⟨repos.goScheme, (p2.getLastD repos.dfltRow).id, 100, true⟩] ∧
    (∀ (e : List Char) (rest2 : List (Except (List Char) (List repos.DepRepo))),
      (repos.ListRepos ⟨deps, gv, gpi, Except.error e :: rest2, urn⟩).storeFetches
        = [⟨repos.goScheme, 0, 100, true⟩] ∧
      (repos.ListRepos ⟨deps, gv, gpi, Except.error e :: rest2, urn⟩).results
        = ds.map (repos.phase1Step gv urn)
            ++ [repos.SourceResult.err (repos.RunErr.storeErr e)]) := by
  constructor
  · cases p1 with
    | nil => simp at h1
    | cons a t =>
      cases p2 with
      | nil => simp at h2
      | cons b u =>
        simp [repos.ListRepos, hdeps, repos.phase2]
  · intro e rest2
    constructor
    · simp [repos.ListRepos, hdeps, repos.phase2]
    · simp [repos.ListRepos, hdeps, repos.phase2]

/-- Witness for `c5_pagination`: two concrete 100-row pages followed by an
empty page produce exactly the three expected fetches. -/
theorem c5_pagination_witness :
    repos.goDependencies [] = Except.ok [] ∧ c5Page1.length = 100 ∧ c5Page2.length = 100 ∧
    (repos.ListRepos ⟨[], fun _ _ => none, fun _ => Except.error [],
        [Except.ok c5Page1, Except.ok c5Page2, Except.ok []], []⟩).storeFetches
      = [⟨repos.goScheme, 0, 100, true⟩,
         ⟨repos.goScheme, (c5Page1.getLastD repos.dfltRow).id, 100, true⟩,
         ⟨repos.goScheme, (c5Page2.getLastD repos.dfltRow).id, 100, true⟩] :=
  ⟨rfl, by decide, by decide,
   (c5_pagination [] [] (fun _ _ => none) (fun _ => Except.error []) [] rfl
      c5Page1 c5Page2 [] (by decide) (by decide)).1⟩

/-! ## Phase 2 item processing: equation lemmas -/

/-- A row whose stored name fails to parse is logged and skipped. -/
theorem processItems_parseErr {gpi : List Char → Except (List Char) repos.PackageInfo}
    {urn : List Char} {cache : repos.Cache} {r : repos.DepRepo} {rest : List repos.DepRepo}
    {e : List Char} (hp : reposource.ParseGoDependency r.name = Except.error e) :
    repos.processItems gpi urn cache (r :: rest) = repos.processItems gpi urn cache rest := by
  simp [repos.processItems, hp]

/-- A row whose namespace is already cached consults the cached metadata
and performs no fetch. -/
theorem processItems_hit {gpi : List Char → Except (List Char) repos.PackageInfo}
    {urn : List Char} {cache : repos.Cache} {r : repos.DepRepo} {rest : List repos.DepRepo}
    {parsed : gomod.Version} {info : repos.PackageInfo}
    (hp : reposource.ParseGoDependency r.name = Except.ok parsed)
    (hl : repos.lookupNS parsed.path cache = some info) :
    repos.processItems gpi urn cache (r :: rest) =
      (if r.version ∈ info.versions then
        ⟨repos.SourceResult.repo (repos.makeRepo urn parsed)
            :: (repos.processItems gpi urn cache rest).results,
          (repos.processItems gpi urn cache rest).cache,
          (repos.processItems gpi urn cache rest).metaFetches⟩
       else repos.processItems gpi urn cache rest) := by
  simp only [repos.processItems, hp, reposource.PackageSyntax, hl]

/-- A cache miss whose upstream fetch fails caches the empty metadata and
emits nothing for the row. -/
theorem processItems_fetchErr {gpi : List Char → Except (List Char) repos.PackageInfo}
    {urn : List Char} {cache : repos.Cache} {r : repos.DepRepo} {rest : List repos.DepRepo}
    {parsed : gomod.Version} {e : List Char}
    (hp : reposource.ParseGoDependency r.name = Except.ok parsed)
    (hl : repos.lookupNS parsed.path cache = none)
    (hg : gpi parsed.path = Except.error e) :
    repos.processItems gpi urn cache (r :: rest) =
      ⟨(repos.processItems gpi urn ((parsed.path, repos.emptyPackageInfo) :: cache) rest).results,
       (repos.processItems gpi urn ((parsed.path, repos.emptyPackageInfo) :: cache) rest).cache,
       parsed.path ::
         (repos.processItems gpi urn
           ((parsed.path, repos.emptyPackageInfo) :: cache) rest).metaFetches⟩ := by
  simp only [repos.processItems, hp, reposource.PackageSyntax, hl, hg]

/-- A cache miss whose upstream fetch succeeds caches the metadata,
records the fetch, and emits a record only when the row's version is
known. -/
theorem processItems_fetchOk {gpi : List Char → Except (List Char) repos.PackageInfo}
    {urn : List Char} {cache : repos.Cache} {r : repos.DepRepo} {rest : List repos.DepRepo}
    {parsed : gomod.Version} {info : repos.PackageInfo}
    (hp : reposource.ParseGoDependency r.name = Except.ok parsed)
    (hl : repos.lookupNS parsed.path cache = none)
    (hg : gpi parsed.path = Except.ok info) :
    repos.processItems gpi urn cache (r :: rest) =
      (if r.version ∈ info.versions then
        ⟨repos.SourceResult.repo (repos.makeRepo urn parsed)
            :: (repos.processItems gpi urn ((parsed.path, info) :: cache) rest).results,
          (repos.processItems gpi urn ((parsed.path, info) :: cache) rest).cache,
          parsed.path
            :: (repos.processItems gpi urn ((parsed.path, info) :: cache) rest).metaFetches⟩
       else
        ⟨(repos.processItems gpi urn ((parsed.path, info) :: cache) rest).results,
          (repos.processItems gpi urn ((parsed.path, info) :: cache) rest).cache,
          parsed.path
            :: (repos.processItems gpi urn ((parsed.path, info) :: cache) rest).metaFetches⟩) := by
  simp only [repos.processItems, hp, reposource.PackageSyntax, hl, hg]

/-! ## The in-run cache invariant -/

/-- A key absent from an extended cache was absent before (and differs
from the new key). -/
theorem lookupNS_cons_ne {k k' : List Char} {info : repos.PackageInfo} {c : repos.Cache}
    (h : repos.lookupNS k ((k', info) :: c) = none) :
    ¬ k' = k ∧ repos.lookupNS k c = none := by
  unfold repos.lookupNS at h
  split_ifs at h with he
  exact ⟨he, h⟩

/-- Cache lookups are monotone under extension. -/
theorem lookupNS_mono {k : List Char} {c : repos.Cache} (e : List Char × repos.PackageInfo)
    (h : ¬ repos.lookupNS k c = none) : ¬ repos.lookupNS k (e :: c) = none := by
  obtain ⟨k', info⟩ := e
  unfold repos.lookupNS
  split_ifs with he
  · simp
  · exact h

/-- Looking up the key just inserted succeeds. -/
theorem lookupNS_cons_self {k : List Char} {info : repos.PackageInfo} {c : repos.Cache} :
    repos.lookupNS k ((k, info) :: c) = some info := by
  simp [repos.lookupNS]

/-- The invariant of one page's item loop: the namespaces fetched are
distinct, were all absent from the incoming cache, the cache only grows,
and every fetched namespace is present in the outgoing cache. -/
theorem processItems_inv (gpi : List Char → Except (List Char) repos.PackageInfo)
    (urn : List Char) : ∀ (items : List repos.DepRepo) (cache : repos.Cache),
    (repos.processItems gpi urn cache items).metaFetches.Nodup ∧
    (∀ k ∈ (repos.processItems gpi urn cache items).metaFetches,
      repos.lookupNS k cache = none) ∧
    (∀ k, ¬ repos.lookupNS k cache = none →
      ¬ repos.lookupNS k (repos.processItems gpi urn cache items).cache = none) ∧
    (∀ k ∈ (repos.processItems gpi urn cache items).metaFetches,
      ¬ repos.lookupNS k (repos.processItems gpi urn cache items).cache = none) := by
  intro items
  induction items with
  | nil =>
    intro cache
    refine ⟨by simp [repos.processItems], by simp [repos.processItems], ?_, ?_⟩
    · intro k hk
      simpa [repos.processItems] using hk
    · intro k hk
      simp [repos.processItems] at hk
  | cons r rest ih =>
    intro cache
    cases hp : reposource.ParseGoDependency r.name with
    | error e =>
      rw [processItems_parseErr hp]
      exact ih cache
    | ok parsed =>
      cases hl : repos.lookupNS parsed.path cache with
      | some info =>
        have hmeta : (repos.processItems gpi urn cache (r :: rest)).metaFetches
            = (repos.processItems gpi urn cache rest).metaFetches := by
          rw [processItems_hit hp hl]
          split_ifs <;> rfl
        have hcache : (repos.processItems gpi urn cache (r :: rest)).cache
            = (repos.processItems gpi urn cache rest).cache := by
          rw [processItems_hit hp hl]
          split_ifs <;> rfl
        rw [hmeta, hcache]
        exact ih cache
      | none =>
        cases hg : gpi parsed.path with
        | error e =>
          have hmeta : (repos.processItems gpi urn cache (r :: rest)).metaFetches
              = parsed.path :: (repos.processItems gpi urn
                  ((parsed.path, repos.emptyPackageInfo) :: cache) rest).metaFetches := by
            rw [processItems_fetchErr hp hl hg]
          have hcache : (repos.processItems gpi urn cache (r :: rest)).cache
              = (repos.processItems gpi urn
                  ((parsed.path, repos.emptyPackageInfo) :: cache) rest).cache := by
            rw [processItems_fetchErr hp hl hg]
          obtain ⟨ih1, ih2, ih3, ih4⟩ := ih ((parsed.path, repos.emptyPackageInfo) :: cache)
          rw [hmeta, hcache]
          refine ⟨?_, ?_, ?_, ?_⟩
          · refine List.nodup_cons.mpr ⟨?_, ih1⟩
            intro hmem
            exact absurd (ih2 parsed.path hmem) (by simp [lookupNS_cons_self])
          · intro k hk
            rcases List.mem_cons.mp hk with rfl | hk
            · exact hl
            · exact (lookupNS_cons_ne (ih2 k hk)).2
          · intro k hk
            exact ih3 k (lookupNS_mono _ hk)
          · intro k hk
            rcases List.mem_cons.mp hk with rfl | hk
            · exact ih3 parsed.path (by simp [lookupNS_cons_self])
            · exact ih4 k hk
        | ok info =>
          have hmeta : (repos.processItems gpi urn cache (r :: rest)).metaFetches
              = parsed.path :: (repos.processItems gpi urn
                  ((parsed.path, info) :: cache) rest).metaFetches := by
            rw [processItems_fetchOk hp hl hg]
            split_ifs <;> rfl
          have hcache : (repos.processItems gpi urn cache (r :: rest)).cache
              = (repos.processItems gpi urn ((parsed.path, info) :: cache) rest).cache := by
            rw [processItems_fetchOk hp hl hg]
            split_ifs <;> rfl
          obtain ⟨ih1, ih2, ih3, ih4⟩ := ih ((parsed.path, info) :: cache)
          rw [hmeta, hcache]
          refine ⟨?_, ?_, ?_, ?_⟩
          · refine List.nodup_cons.mpr ⟨?_, ih1⟩
            intro hmem
            exact absurd (ih2 parsed.path hmem) (by simp [lookupNS_cons_self])
          · intro k hk
            rcases List.mem_cons.mp hk with rfl | hk
            · exact hl
            · exact (lookupNS_cons_ne (ih2 k hk)).2
          · intro k hk
            exact ih3 k (lookupNS_mono _ hk)
          · intro k hk
            rcases List.mem_cons.mp hk with rfl | hk
            · exact ih3 parsed.path (by simp [lookupNS_cons_self])
            · exact ih4 k hk

/-- The invariant lifted through the pagination loop: all namespaces
fetched across the pages of one run are distinct and were absent from the
cache the loop started with. -/
theorem phase2_inv (gpi : List Char → Except (List Char) repos.PackageInfo)
    (urn : List Char) : ∀ (pages : List (Except (List Char) (List repos.DepRepo)))
    (lastID : Nat) (cache : repos.Cache),
    (repos.phase2 gpi urn lastID cache pages).metaFetches.Nodup ∧
    (∀ k ∈ (repos.phase2 gpi urn lastID cache pages).metaFetches,
      repos.lookupNS k cache = none) := by
  intro pages
  induction pages with
  | nil => intro lastID cache; simp [repos.phase2]
  | cons page rest ih =>
    intro lastID cache
    cases page with
    | error e => simp [repos.phase2]
    | ok rows =>
      cases rows with
      | nil => simp [repos.phase2]
      | cons item items =>
        have hmeta : (repos.phase2 gpi urn lastID cache (Except.ok (item :: items) :: rest)).metaFetches
            = (repos.processItems gpi urn cache (item :: items)).metaFetches ++
              (repos.phase2 gpi urn ((item :: items).getLastD repos.dfltRow).id
                (repos.processItems gpi urn cache (item :: items)).cache rest).metaFetches := by
          simp [repos.phase2]
        obtain ⟨p1, p2, p3, p4⟩ := processItems_inv gpi urn (item :: items) cache
        obtain ⟨q1, q2⟩ := ih ((item :: items).getLastD repos.dfltRow).id
          (repos.processItems gpi urn cache (item :: items)).cache
        rw [hmeta]
        constructor
        · refine List.Nodup.append p1 q1 ?_
          intro k hk1 hk2
          exact absurd (q2 k hk2) (p4 k hk1)
        · intro k hk
          rcases List.mem_append.mp hk with hk | hk
          · exact p2 k hk
          · by_contra hnone
            exact absurd (q2 k hk) (p3 k hnone)

/-- The cache resulting from one step of the item loop, by case on the
row's fate. -/
theorem processItems_cache_hit {gpi : List Char → Except (List Char) repos.PackageInfo}
    {urn : List Char} {cache : repos.Cache} {r : repos.DepRepo} {rest : List repos.DepRepo}
    {parsed : gomod.Version} {info : repos.PackageInfo}
    (hp : reposource.ParseGoDependency r.name = Except.ok parsed)
    (hl : repos.lookupNS parsed.path cache = some info) :
    (repos.processItems gpi urn cache (r :: rest)).cache
      = (repos.processItems gpi urn cache rest).cache := by
  rw [processItems_hit hp hl]
  split_ifs <;> rfl

/-- Cache shape after a successful fetch. -/
theorem processItems_cache_fetchOk {gpi : List Char → Except (List Char) repos.PackageInfo}
    {urn : List Char} {cache : repos.Cache} {r : repos.DepRepo} {rest : List repos.DepRepo}
    {parsed : gomod.Version} {info : repos.PackageInfo}
    (hp : reposource.ParseGoDependency r.name = Except.ok parsed)
    (hl : repos.lookupNS parsed.path cache = none)
    (hg : gpi parsed.path = Except.ok info) :
    (repos.processItems gpi urn cache (r :: rest)).cache
      = (repos.processItems gpi urn ((parsed.path, info) :: cache) rest).cache := by
  rw [processItems_fetchOk hp hl hg]
  split_ifs <;> rfl

/-- Metadata-fetch trace shape after a successful fetch. -/
theorem processItems_meta_fetchOk {gpi : List Char → Except (List Char) repos.PackageInfo}
    {urn : List Char} {cache : repos.Cache} {r : repos.DepRepo} {rest : List repos.DepRepo}
    {parsed : gomod.Version} {info : repos.PackageInfo}
    (hp : reposource.ParseGoDependency r.name = Except.ok parsed)
    (hl : repos.lookupNS parsed.path cache = none)
    (hg : gpi parsed.path = Except.ok info) :
    (repos.processItems gpi urn cache (r :: rest)).metaFetches
      = parsed.path :: (repos.processItems gpi urn ((parsed.path, info) :: cache) rest).metaFetches := by
  rw [processItems_fetchOk hp hl hg]
  split_ifs <;> rfl

/-- Metadata-fetch trace shape on a cache hit. -/
theorem processItems_meta_hit {gpi : List Char → Except (List Char) repos.PackageInfo}
    {urn : List Char} {cache : repos.Cache} {r : repos.DepRepo} {rest : List repos.DepRepo}
    {parsed : gomod.Version} {info : repos.PackageInfo}
    (hp : reposource.ParseGoDependency r.name = Except.ok parsed)
    (hl : repos.lookupNS parsed.path cache = some info) :
    (repos.processItems gpi urn cache (r :: rest)).metaFetches
      = (repos.processItems gpi urn cache rest).metaFetches := by
  rw [processItems_hit hp hl]
  split_ifs <;> rfl

/-- Every row of a batch that parses has its namespace present in the
batch's outgoing cache. -/
theorem processItems_covers (gpi : List Char → Except (List Char) repos.PackageInfo)
    (urn : List Char) : ∀ (items : List repos.DepRepo) (cache : repos.Cache)
    (r : repos.DepRepo) (parsed : gomod.Version), r ∈ items →
    reposource.ParseGoDependency r.name = Except.ok parsed →
    ¬ repos.lookupNS parsed.path (repos.processItems gpi urn cache items).cache = none := by
  intro items
  induction items with
  | nil => intro cache r parsed hr _; exact absurd hr (List.not_mem_nil r)
  | cons x rest ih =>
    intro cache r parsed hr hp
    rcases List.mem_cons.mp hr with rfl | hr
    · cases hl : repos.lookupNS parsed.path cache with
      | some info =>
        rw [processItems_cache_hit hp hl]
        exact (processItems_inv gpi urn rest cache).2.2.1 parsed.path (by simp [hl])
      | none =>
        cases hg : gpi parsed.path with
        | error e =>
          rw [processItems_fetchErr hp hl hg]
          exact (processItems_inv gpi urn rest _).2.2.1 parsed.path (by simp [lookupNS_cons_self])
        | ok info =>
          rw [processItems_cache_fetchOk hp hl hg]
          exact (processItems_inv gpi urn rest _).2.2.1 parsed.path (by simp [lookupNS_cons_self])
    · cases hpx : reposource.ParseGoDependency x.name with
      | error e =>
        rw [processItems_parseErr hpx]
        exact ih cache r parsed hr hp
      | ok px =>
        cases hl : repos.lookupNS px.path cache with
        | some info =>
          rw [processItems_cache_hit hpx hl]
          exact ih cache r parsed hr hp
        | none =>
          cases hg : gpi px.path with
          | error e =>
            rw [processItems_fetchErr hpx hl hg]
            exact ih _ r parsed hr hp
          | ok info =>
            rw [processItems_cache_fetchOk hpx hl hg]
            exact ih _ r parsed hr hp

/-- A namespace newly present in the outgoing cache of a batch was
fetched during that batch. -/
theorem processItems_newkeys (gpi : List Char → Except (List Char) repos.PackageInfo)
    (urn : List Char) : ∀ (items : List repos.DepRepo) (cache : repos.Cache) (k : List Char),
    repos.lookupNS k cache = none →
    ¬ repos.lookupNS k (repos.processItems gpi urn cache items).cache = none →
    k ∈ (repos.processItems gpi urn cache items).metaFetches := by
  intro items
  induction items with
  | nil =>
    intro cache k hk hnew
    exact absurd (by simpa [repos.processItems] using hk) hnew
  | cons x rest ih =>
    intro cache k hk hnew
    cases hpx : reposource.ParseGoDependency x.name with
    | error e =>
      rw [processItems_parseErr hpx] at hnew ⊢
      exact ih cache k hk hnew
    | ok px =>
      cases hl : repos.lookupNS px.path cache with
      | some info =>
        rw [processItems_cache_hit hpx hl] at hnew
        rw [processItems_meta_hit hpx hl]
        exact ih cache k hk hnew
      | none =>
        by_cases hkey : px.path = k
        · cases hg : gpi px.path with
          | error e =>
            rw [processItems_fetchErr hpx hl hg]
            exact List.mem_cons.mpr (Or.inl hkey.symm)
          | ok info =>
            rw [processItems_meta_fetchOk hpx hl hg]
            exact List.mem_cons.mpr (Or.inl hkey.symm)
        · have hk2 : ∀ info2 : repos.PackageInfo,
              repos.lookupNS k ((px.path, info2) :: cache) = none := by
            intro info2
            simp only [repos.lookupNS, if_neg hkey]
            exact hk
          cases hg : gpi px.path with
          | error e =>
            rw [processItems_fetchErr hpx hl hg] at hnew
            rw [processItems_fetchErr hpx hl hg]
            exact List.mem_cons.mpr (Or.inr
              (ih _ k (hk2 repos.emptyPackageInfo) (by simpa using hnew)))
          | ok info =>
            rw [processItems_cache_fetchOk hpx hl hg] at hnew
            rw [processItems_meta_fetchOk hpx hl hg]
            exact List.mem_cons.mpr (Or.inr (ih _ k (hk2 info) hnew))

/-- Every processed row that parses has its namespace fetched during the
run, unless it was already cached when the pagination loop started. -/
theorem phase2_covers (gpi : List Char → Except (List Char) repos.PackageInfo)
    (urn : List Char) : ∀ (pages : List (Except (List Char) (List repos.DepRepo)))
    (lastID : Nat) (cache : repos.Cache) (r : repos.DepRepo) (parsed : gomod.Version),
    r ∈ processedRows pages →
    reposource.ParseGoDependency r.name = Except.ok parsed →
    parsed.path ∈ (repos.phase2 gpi urn lastID cache pages).metaFetches ∨
      ¬ repos.lookupNS parsed.path cache = none := by
  intro pages
  induction pages with
  | nil => intro lastID cache r parsed hr _; exact absurd hr (by simp [processedRows])
  | cons page rest ih =>
    intro lastID cache r parsed hr hp
    cases page with
    | error e => exact absurd hr (by simp [processedRows])
    | ok rows =>
      cases rows with
      | nil => exact absurd hr (by simp [processedRows])
      | cons x xs =>
        have hmeta : (repos.phase2 gpi urn lastID cache
              (Except.ok (x :: xs) :: rest)).metaFetches
            = (repos.processItems gpi urn cache (x :: xs)).metaFetches ++
              (repos.phase2 gpi urn ((x :: xs).getLastD repos.dfltRow).id
                (repos.processItems gpi urn cache (x :: xs)).cache rest).metaFetches := by
          simp [repos.phase2]
        simp only [processedRows] at hr
        rcases List.mem_append.mp hr with hrx | hrr
        · by_cases hl : repos.lookupNS parsed.path cache = none
          · left
            rw [hmeta]
            exact List.mem_append.mpr (Or.inl (processItems_newkeys gpi urn (x :: xs) cache
              parsed.path hl (processItems_covers gpi urn (x :: xs) cache r parsed hrx hp)))
          · exact Or.inr hl
        · rcases ih ((x :: xs).getLastD repos.dfltRow).id
              (repos.processItems gpi urn cache (x :: xs)).cache r parsed hrr hp with hin | hnc
          · left
            rw [hmeta]
            exact List.mem_append.mpr (Or.inr hin)
          · by_cases hl : repos.lookupNS parsed.path cache = none
            · left
              rw [hmeta]
              exact List.mem_append.mpr
                (Or.inl (processItems_newkeys gpi urn (x :: xs) cache parsed.path hl hnc))
            · exact Or.inr hl

/-- A namespace absent from a trace occurs zero times. -/
theorem countNS_zero {a : List Char} : ∀ {l : List (List Char)}, ¬ a ∈ l → countNS a l = 0 := by
  intro l
  induction l with
  | nil => intro _; rfl
  | cons x xs ih =>
    intro h
    have hx : ¬ x = a := fun he => h (he ▸ List.mem_cons_self x xs)
    have hxs : ¬ a ∈ xs := fun hm => h (List.mem_cons_of_mem x hm)
    simp only [countNS, List.filter_cons, decide_eq_true_eq, hx, if_false]
    exact ih hxs

/-- In a duplicate-free trace, a present namespace occurs exactly once. -/
theorem countNS_one {a : List Char} : ∀ {l : List (List Char)},
    l.Nodup → a ∈ l → countNS a l = 1 := by
  intro l
  induction l with
  | nil => intro _ h; exact absurd h (List.not_mem_nil a)
  | cons x xs ih =>
    intro hnd hmem
    obtain ⟨hx, hxs⟩ := List.nodup_cons.mp hnd
    rcases List.mem_cons.mp hmem with rfl | hmem
    · simp only [countNS, List.filter_cons, decide_eq_true_eq, if_pos rfl, List.length_cons]
      have : countNS a xs = 0 := countNS_zero hx
      simpa [countNS] using this
    · have hxa : ¬ x = a := fun he => hx (he ▸ hmem)
      simp only [countNS, List.filter_cons, decide_eq_true_eq, hxa, if_false]
      exact ih hxs hmem

/-! ## Claim C6 -/

/-- C6 (confirmed): the in-run metadata cache.  In every run the
namespaces fetched upstream are pairwise distinct; in the spec's
scenario — two persisted rows naming the same module at two different
versions — exactly one fetch for that namespace happens; and in general,
for every processed row that parses, the run performs exactly ONE
upstream metadata fetch for that row's namespace. -/
theorem c6_cache :
    (∀ cfg : repos.RunCfg, (repos.ListRepos cfg).metaFetches.Nodup) ∧
    (∀ (gv : List Char → List Char → Option gomodproxy.GetErr)
       (gpi : List Char → Except (List Char) repos.PackageInfo)
       (urn : List Char) (r1 r2 : repos.DepRepo) (p1 p2 : gomod.Version),
      reposource.ParseGoDependency r1.name = Except.ok p1 →
      reposource.ParseGoDependency r2.name = Except.ok p2 →
      p2.path = p1.path → ¬ r1.version = r2.version →
      (repos.ListRepos ⟨[], gv, gpi, [Except.ok [r1, r2], Except.ok []], urn⟩).metaFetches
        = [p1.path]) ∧
    (∀ (cfg : repos.RunCfg) (ds : List gomod.Version) (r : repos.DepRepo)
       (parsed : gomod.Version),
      repos.goDependencies cfg.dependencies = Except.ok ds →
      r ∈ processedRows cfg.pages →
      reposource.ParseGoDependency r.name = Except.ok parsed →
      countNS parsed.path (repos.ListRepos cfg).metaFetches = 1) := by
  refine ⟨?_, ?_, ?_⟩
  · intro cfg
    unfold repos.ListRepos
    cases hd : repos.goDependencies cfg.dependencies with
    | error e => simp
    | ok deps =>
      simp only []
      exact (phase2_inv cfg.getPackageInfo cfg.urn cfg.pages 0 []).1
  · intro gv gpi urn r1 r2 p1 p2 hp1 hp2 hpp hvv
    have hm : (repos.ListRepos ⟨[], gv, gpi, [Except.ok [r1, r2], Except.ok []], urn⟩).metaFetches
        = (repos.processItems gpi urn [] [r1, r2]).metaFetches := by
      simp [repos.ListRepos, repos.goDependencies, repos.phase2]
    rw [hm]
    have hl1 : repos.lookupNS p1.path ([] : repos.Cache) = none := rfl
    have htail : ∀ info2 : repos.PackageInfo,
        (repos.processItems gpi urn ((p1.path, info2) :: []) [r2]).metaFetches = [] := by
      intro info2
      have hl2 : repos.lookupNS p2.path ((p1.path, info2) :: []) = some info2 := by
        simp [repos.lookupNS, hpp.symm]
      rw [processItems_hit hp2 hl2]
      split_ifs <;> simp [repos.processItems]
    cases hg : gpi p1.path with
    | error e =>
      rw [processItems_fetchErr hp1 hl1 hg, htail repos.emptyPackageInfo]
    | ok info =>
      have : (repos.processItems gpi urn [] [r1, r2]).metaFetches
          = p1.path :: (repos.processItems gpi urn ((p1.path, info) :: []) [r2]).metaFetches := by
        rw [processItems_fetchOk hp1 hl1 hg]
        split_ifs <;> rfl
      rw [this, htail info]
  · intro cfg ds r parsed hds hr hp
    have hm : (repos.ListRepos cfg).metaFetches
        = (repos.phase2 cfg.getPackageInfo cfg.urn 0 [] cfg.pages).metaFetches := by
      unfold repos.ListRepos
      rw [hds]
    have hnodup := (phase2_inv cfg.getPackageInfo cfg.urn cfg.pages 0 []).1
    have hmem : parsed.path
        ∈ (repos.phase2 cfg.getPackageInfo cfg.urn 0 [] cfg.pages).metaFetches := by
      rcases phase2_covers cfg.getPackageInfo cfg.urn cfg.pages 0 [] r parsed hr hp with h | h
      · exact h
      · exact absurd rfl h
    rw [hm]
    exact countNS_one hnodup hmem

/-- Witness for `c6_cache` at two concrete rows of the same module. -/
theorem c6_cache_witness :
    reposource.ParseGoDependency c6Row1.name
        = Except.ok ⟨("golang.org/x/mod").toList, []⟩ ∧
    reposource.ParseGoDependency c6Row2.name
        = Except.ok ⟨("golang.org/x/mod").toList, []⟩ ∧
    ¬ c6Row1.version = c6Row2.version ∧
    (repos.ListRepos ⟨[], fun _ _ => none, fun _ => Except.error [],
        [Except.ok [c6Row1, c6Row2], Except.ok []], []⟩).metaFetches
      = [("golang.org/x/mod").toList] :=
  ⟨rfl, rfl, by decide,
   c6_cache.2.1 (fun _ _ => none) (fun _ => Except.error []) [] c6Row1 c6Row2
     ⟨("golang.org/x/mod").toList, []⟩ ⟨("golang.org/x/mod").toList, []⟩
     rfl rfl rfl (by decide)⟩

/-! ## Claim C7 -/

/-- C7 (confirmed): stale version skip.  A row whose parsed namespace has
metadata (cached, or freshly fetched) not containing the row's version
produces no repository record and no error record — processing continues
exactly as if the row were absent (only the fetch, when one happened, is
recorded). -/
theorem c7_stale_skip (gpi : List Char → Except (List Char) repos.PackageInfo)
    (urn : List Char) (cache : repos.Cache) (r : repos.DepRepo) (rest : List repos.DepRepo)
    (parsed : gomod.Version)
    (hp : reposource.ParseGoDependency r.name = Except.ok parsed) :
    (∀ info : repos.PackageInfo, repos.lookupNS parsed.path cache = some info →
      ¬ r.version ∈ info.versions →
      repos.processItems gpi urn cache (r :: rest) = repos.processItems gpi urn cache rest) ∧
    (∀ info : repos.PackageInfo, repos.lookupNS parsed.path cache = none →
      gpi parsed.path = Except.ok info → ¬ r.version ∈ info.versions →
      repos.processItems gpi urn cache (r :: rest) =
        ⟨(repos.processItems gpi urn ((parsed.path, info) :: cache) rest).results,
         (repos.processItems gpi urn ((parsed.path, info) :: cache) rest).cache,
         parsed.path
           :: (repos.processItems gpi urn ((parsed.path, info) :: cache) rest).metaFetches⟩) := by
  constructor
  · intro info hl hv
    rw [processItems_hit hp hl, if_neg hv]
  · intro info hl hg hv
    rw [processItems_fetchOk hp hl hg, if_neg hv]

/-- Witness for `c7_stale_skip`: a cached module whose metadata lacks the
row's version is skipped silently. -/
theorem c7_stale_skip_witness :
    reposource.ParseGoDependency c7Row.name
        = Except.ok ⟨("golang.org/x/mod").toList, []⟩ ∧
    repos.lookupNS ("golang.org/x/mod").toList [(("golang.org/x/mod").toList, c7Info)]
        = some c7Info ∧
    ¬ c7Row.version ∈ c7Info.versions ∧
    repos.processItems (fun _ => Except.error []) [] [(("golang.org/x/mod").toList, c7Info)]
        [c7Row]
      = repos.processItems (fun _ => Except.error []) [] [(("golang.org/x/mod").toList, c7Info)]
        [] :=
  ⟨rfl, rfl, by decide,
   (c7_stale_skip (fun _ => Except.error []) [] [(("golang.org/x/mod").toList, c7Info)]
      c7Row [] ⟨("golang.org/x/mod").toList, []⟩ rfl).1 c7Info rfl (by decide)⟩

/-! ## Claim C10 -/

/-- C10 (confirmed): a failed metadata fetch is swallowed.  On a cache
miss whose upstream fetch fails, the engine emits no error record, caches
the EMPTY version map under the namespace, and continues; and any later
row of a namespace cached with an empty version map is skipped without a
fetch and without output. -/
theorem c10_swallow (gpi : List Char → Except (List Char) repos.PackageInfo)
    (urn : List Char) (cache : repos.Cache) (r : repos.DepRepo) (rest : List repos.DepRepo)
    (parsed : gomod.Version) (e : List Char)
    (hp : reposource.ParseGoDependency r.name = Except.ok parsed) :
    (repos.lookupNS parsed.path cache = none → gpi parsed.path = Except.error e →
      repos.processItems gpi urn cache (r :: rest) =
        ⟨(repos.processItems gpi urn
            ((parsed.path, repos.emptyPackageInfo) :: cache) rest).results,
         (repos.processItems gpi urn
            ((parsed.path, repos.emptyPackageInfo) :: cache) rest).cache,
         parsed.path :: (repos.processItems gpi urn
            ((parsed.path, repos.emptyPackageInfo) :: cache) rest).metaFetches⟩) ∧
    (∀ desc : List Char, repos.lookupNS parsed.path cache = some ⟨[], desc⟩ →
      repos.processItems gpi urn cache (r :: rest) = repos.processItems gpi urn cache rest) := by
  constructor
  · intro hl hg
    exact processItems_fetchErr hp hl hg
  · intro desc hl
    rw [processItems_hit hp hl, if_neg (by simp)]

/-- Witness for `c10_swallow`: a concrete row whose namespace fetch
fails. -/
theorem c10_swallow_witness :
    reposource.ParseGoDependency c10Row.name
        = Except.ok ⟨("golang.org/x/mod").toList, []⟩ ∧
    repos.processItems (fun _ => Except.error (("boom").toList)) [] [] [c10Row]
      = ⟨(repos.processItems (fun _ => Except.error (("boom").toList)) []
            [(("golang.org/x/mod").toList, repos.emptyPackageInfo)] []).results,
         (repos.processItems (fun _ => Except.error (("boom").toList)) []
            [(("golang.org/x/mod").toList, repos.emptyPackageInfo)] []).cache,
         ("golang.org/x/mod").toList
           :: (repos.processItems (fun _ => Except.error (("boom").toList)) []
            [(("golang.org/x/mod").toList, repos.emptyPackageInfo)] []).metaFetches⟩ :=
  ⟨rfl,
   (c10_swallow (fun _ => Except.error (("boom").toList)) [] [] c10Row []
      ⟨("golang.org/x/mod").toList, []⟩ (("boom").toList) rfl).1 rfl rfl⟩

/-! ## Claim C8 -/

/-- C8 (confirmed): the repository record's name and URI both equal the
fixed scheme tag `go` followed by `/` and the coordinate's namespace,
with `private` false; the record is a pure function of the coordinate
(the URN only affects the source map), so re-resolving the same
coordinate yields byte-identical name and URI. -/
theorem c8_repo_shape (urn : List Char) (dep : gomod.Version) :
    (repos.makeRepo urn dep).name = ("go/").toList ++ dep.path ∧
    (repos.makeRepo urn dep).uri = ("go/").toList ++ dep.path ∧
    (repos.makeRepo urn dep).private_ = false ∧
    (∀ urn2 : List Char, (repos.makeRepo urn2 dep).name = (repos.makeRepo urn dep).name ∧
      (repos.makeRepo urn2 dep).uri = (repos.makeRepo urn dep).uri) :=
  ⟨rfl, rfl, rfl, fun _ => ⟨rfl, rfl⟩⟩

end GoSync
